import Mathlib

/-! # Parallel micro-benchmark kernels: a shallow embedding

The kernels of the benchmark suite (`merge_sort.c`, `matrix_mult.c`,
`mandelbrot.c`, `nbody.c`, `monte_carlo.c`) and the argument validation of
`common_utils.h` are embedded as Lean functions, each loop of the source as
one recursive function or one `for_loop`.

Conventions of the embedding.

* A C array is a `List`; `l.getD i 0` reads cell `i`, `l.set i v` writes it.
  The theorems carry the length hypotheses under which every access of the
  kernel is inside its buffer.
* `int` loop counters are natural numbers: every counter of the kernels is
  non-negative and below its bound.  Merge sort and the N-body kernel index
  their arrays with a counter.  The matrix and Mandelbrot kernels index with
  the `int` expression `i * N + j`, which is evaluated in 32 bits
  (`int_index`, through `wrap_int32`) and used through `cell_read` and
  `cell_write`.  The `unsigned int` seed of the Monte Carlo generator is
  reduced modulo `2^32`, and the allocation size computed in `main` of
  `mandelbrot.c` goes through `wrap_int32` and `to_size_t` (64-bit `size_t`).
* `int` array elements are integers; the kernels only copy and compare them.
* `double` has two embeddings.  Where a property rests only on the order and
  on exact values (`mandelbrot_iterations`, `compute_forces`, the Monte Carlo
  kernel) it is an arbitrary linear ordered field `F`.  Where rounding can
  decide the result, the kernel takes the arithmetic as a record
  `O : DoubleOps D` of the operations it uses; `binary64` is IEEE 754 double
  precision with round-to-nearest-even on finite values (no overflow to
  infinity, no subnormals), computable on dyadic numbers, and `exact_ops` is
  the exact arithmetic of a field.  A literal is written `O.dec m e` for
  `m * 10^e`.
* An OpenMP work-sharing loop or task pair is embedded in its sequential
  order; `threads` is kept as a parameter that the result does not depend on.
  The section on schedules gives each of these kernels a second form that
  takes the order of the iterations or tasks as a parameter.
  `estimate_pi` is the run of a single thread, with the value of `time(NULL)`
  as a parameter.
* Library functions are parameters or fields: `sqrt` in the N-body kernel,
  `atoi` in the argument validation.
-/

/-! ## Merge sort (`merge_sort.c`) -/

/-- Constant `#define TASK_THRESHOLD 10000`. -/
def TASK_THRESHOLD : Nat := 10000

/-- The two buffers `arr` and `temp` that the merge sort kernel mutates. -/
structure Buffers where
  arr : List Int
  temp : List Int
deriving DecidableEq

/-- First loop of `merge`:
`while (i <= mid && j <= right) { if (arr[i] <= arr[j]) temp[k++] = arr[i++]; else temp[k++] = arr[j++]; }`.
Returns the final `(temp, i, j, k)`. -/
def merge_while_both (arr : List Int) (mid right : Nat) (temp : List Int) (i j k : Nat) :
    List Int × Nat × Nat × Nat :=
  if i ≤ mid ∧ j ≤ right then
    if arr.getD i 0 ≤ arr.getD j 0 then
      merge_while_both arr mid right (temp.set k (arr.getD i 0)) (i + 1) j (k + 1)
    else
      merge_while_both arr mid right (temp.set k (arr.getD j 0)) i (j + 1) (k + 1)
  else
    (temp, i, j, k)
termination_by (mid + 1 - i) + (right + 1 - j)

/-- Second and third loop of `merge`: `while (i <= bound) temp[k++] = arr[i++];`.
Returns the final `(temp, i, k)`. -/
def merge_while_rest (arr : List Int) (bound : Nat) (temp : List Int) (i k : Nat) :
    List Int × Nat × Nat :=
  if i ≤ bound then
    merge_while_rest arr bound (temp.set k (arr.getD i 0)) (i + 1) (k + 1)
  else
    (temp, i, k)
termination_by bound + 1 - i

/-- Last loop of `merge`: `for (i = left; i <= right; i++) arr[i] = temp[i];`,
started at `i`. -/
def merge_copy_back (temp : List Int) (right : Nat) (arr : List Int) (i : Nat) : List Int :=
  if i ≤ right then
    merge_copy_back temp right (arr.set i (temp.getD i 0)) (i + 1)
  else
    arr
termination_by right + 1 - i

/-- The contents of `temp` after the three filling loops of `merge`, started
from the counters `i`, `j`, `k`. -/
def merge_fill (arr : List Int) (mid right : Nat) (temp : List Int) (i j k : Nat) : List Int :=
  let s1 := merge_while_both arr mid right temp i j k
  let s2 := merge_while_rest arr mid s1.1 s1.2.1 s1.2.2.2
  let s3 := merge_while_rest arr right s2.1 s1.2.2.1 s2.2.2
  s3.1

/-- Function `void merge(int* arr, int* temp, int left, int mid, int right)`. -/
def merge (arr temp : List Int) (left mid right : Nat) : Buffers :=
  let temp1 := merge_fill arr mid right temp left (mid + 1) left
  { arr := merge_copy_back temp1 right arr left, temp := temp1 }

/-- Function `void merge_sort_parallel(int* arr, int* temp, int left, int right)`.
The two `#pragma omp task` calls, joined by `#pragma omp taskwait`, work on the
disjoint index ranges `[left, mid]` and `[mid+1, right]`; they are embedded
in program order, like the serial branch. -/
def merge_sort_parallel (arr temp : List Int) (left right : Nat) : Buffers :=
  if left < right then
    let mid := left + (right - left) / 2
    let size := right - left + 1
    if size > TASK_THRESHOLD then
      let b1 := merge_sort_parallel arr temp left mid
      let b2 := merge_sort_parallel b1.arr b1.temp (mid + 1) right
      merge b2.arr b2.temp left mid right
    else
      let b1 := merge_sort_parallel arr temp left mid
      let b2 := merge_sort_parallel b1.arr b1.temp (mid + 1) right
      merge b2.arr b2.temp left mid right
  else
    { arr := arr, temp := temp }
termination_by right - left
decreasing_by all_goals (simp_wf; omega)

/-- Function `void merge_sort(int* arr, int* temp, int N, int threads)`: one call of
`merge_sort_parallel(arr, temp, 0, N - 1)` inside the parallel region.  For
`N = 0` the C call has `right = -1` and does nothing, as does the call with
`right = 0` made here. -/
def merge_sort (arr temp : List Int) (N : Nat) (_threads : Int) : Buffers :=
  merge_sort_parallel arr temp 0 (N - 1)

/-- The cells `l[a], ..., l[b-1]` of an array. -/
def seg (l : List Int) (a b : Nat) : List Int :=
  (l.drop a).take (b - a)

/-- The merge step as the specification words it: the classic two-pointer
merge of two runs, where a tie between the current heads is resolved to the
element of the left run. -/
def two_pointer_merge : List Int → List Int → List Int
  | [], ys => ys
  | x :: xs, [] => x :: xs
  | x :: xs, y :: ys =>
    if x ≤ y then x :: two_pointer_merge xs (y :: ys)
    else y :: two_pointer_merge (x :: xs) ys
termination_by xs ys => xs.length + ys.length

/-- What a call on the range `[left, right]` establishes: outside the range
both buffers are untouched, and inside it `arr` holds a sorted rearrangement
of its former cells. -/
structure SortsRange (arr temp : List Int) (left right : Nat) (b : Buffers) : Prop where
  arr_take : b.arr.take left = arr.take left
  arr_drop : b.arr.drop (right + 1) = arr.drop (right + 1)
  arr_length : b.arr.length = arr.length
  temp_take : b.temp.take left = temp.take left
  temp_drop : b.temp.drop (right + 1) = temp.drop (right + 1)
  temp_length : b.temp.length = temp.length
  sorted : (seg b.arr left (right + 1)).Sorted (· ≤ ·)
  perm : (seg b.arr left (right + 1)).Perm (seg arr left (right + 1))

/-! ## Counted loops -/

/-- Loop `for (int i = 0; i < n; i++) body`: the body runs for `i = 0, 1, ..., n-1`
in this order, each run transforming the state left by the previous one. -/
def for_loop {σ : Type} (n : Nat) (body : Nat → σ → σ) (s : σ) : σ :=
  match n with
  | 0 => s
  | m + 1 => body m (for_loop m body s)

/-! ## Matrix multiplication (`matrix_mult.c`) -/

/-- The three buffers `A`, `B`, `C` of the matrix kernel (separately
allocated, so that a write to `C` changes neither `A` nor `B`). -/
structure Matrices (F : Type) where
  A : List F
  B : List F
  C : List F

/-! ## Mandelbrot (`mandelbrot.c`) -/

/-- Constant `#define MAX_ITER 1000`. -/
def MAX_ITER : Nat := 1000

/-- The loop of `mandelbrot_iterations`, from the state `(x, y, iter)`:
`while (x*x + y*y <= 4.0 && iter < MAX_ITER) { temp = x*x - y*y + cx; y = 2.0*x*y + cy; x = temp; iter++; }`,
returning the final `iter`. -/
def mandelbrot_while {F : Type} [LinearOrderedField F] (cx cy x y : F) (iter : Nat) : Nat :=
  if x * x + y * y ≤ 4.0 ∧ iter < MAX_ITER then
    let temp := x * x - y * y + cx
    mandelbrot_while cx cy temp (2.0 * x * y + cy) (iter + 1)
  else
    iter
termination_by MAX_ITER - iter

/-- Function `int mandelbrot_iterations(double cx, double cy)`. -/
def mandelbrot_iterations {F : Type} [LinearOrderedField F] (cx cy : F) : Nat :=
  mandelbrot_while cx cy (0.0 : F) (0.0 : F) 0

/-! ## N-body (`nbody.c`) -/

/-- Record `typedef struct { double x, y, z; double vx, vy, vz; double mass; } Body;`. -/
structure Body (F : Type) where
  x : F
  y : F
  z : F
  vx : F
  vy : F
  vz : F
  mass : F

/-- The value read from a cell outside the body array. -/
def Body.zero {F : Type} [LinearOrderedField F] : Body F :=
  { x := 0, y := 0, z := 0, vx := 0, vy := 0, vz := 0, mass := 0 }

/-- The inner loop of `compute_forces` for body `i`: the accumulated
`(fx, fy, fz)` over all `j != i`. -/
def accumulate_force {F : Type} [LinearOrderedField F] (sqrt : F → F) (bodies : List (Body F))
    (N i : Nat) : F × F × F :=
  let G : F := 6.67430e-11
  let softening : F := 1e-9
  for_loop N (fun j (f : F × F × F) =>
    if i ≠ j then
      let dx := (bodies.getD j Body.zero).x - (bodies.getD i Body.zero).x
      let dy := (bodies.getD j Body.zero).y - (bodies.getD i Body.zero).y
      let dz := (bodies.getD j Body.zero).z - (bodies.getD i Body.zero).z
      let dist_sq := dx * dx + dy * dy + dz * dz + softening
      let dist := sqrt dist_sq
      let force := G * (bodies.getD i Body.zero).mass * (bodies.getD j Body.zero).mass / dist_sq
      (f.1 + force * dx / dist, f.2.1 + force * dy / dist, f.2.2 + force * dz / dist)
    else f) ((0.0 : F), (0.0 : F), (0.0 : F))

/-- Function `void compute_forces(Body* bodies, int N, int threads)`, with `sqrt` a
parameter.  The `parallel for` over `i` is embedded in increasing `i`. -/
def compute_forces {F : Type} [LinearOrderedField F] (sqrt : F → F) (bodies : List (Body F))
    (N : Nat) (_threads : Int) : List (Body F) :=
  for_loop N (fun i bodies =>
    let f := accumulate_force sqrt bodies N i
    let b := bodies.getD i Body.zero
    bodies.set i { b with
      vx := b.vx + f.1 / b.mass
      vy := b.vy + f.2.1 / b.mass
      vz := b.vz + f.2.2 / b.mass }) bodies

/-! ## The arithmetic of `double`

The kernels below that are stated on `double` take the arithmetic as a
record `DoubleOps D` of operations on a type `D` of values.  Two records are
used: `binary64`, the IEEE 754 double precision arithmetic on finite values in
the normal range (round to nearest, ties to even; infinities, NaN, signed
zeros and subnormal rounding are not represented; a division by zero yields
zero), and `exact_ops`, the unrounded arithmetic of an ordered field.  Every
operation of the source is one operation of the record and rounds once: the
compiler is taken not to contract `a * b + c` into a fused multiply-add and
not to keep intermediate results in a wider format. -/

/-- Number of binary digits of `n`, by halving at most `fuel` times. -/
def bit_length_aux : Nat → Nat → Nat
  | 0, _ => 0
  | fuel + 1, n => if n = 0 then 0 else bit_length_aux fuel (n / 2) + 1

/-- The number of binary digits of `n` (`0` for `n = 0`). -/
def bit_length (n : Nat) : Nat := bit_length_aux n n

/-- A finite `double` value, written `m * 2^e` with `m` odd, or `0 * 2^0`. -/
structure Dyadic where
  m : Int
  e : Int
deriving DecidableEq

/-- Divides the mantissa by two while it is even, at most `fuel` times. -/
def strip_aux : Nat → Int → Int → Dyadic
  | 0, m, e => ⟨m, e⟩
  | fuel + 1, m, e => if m % 2 = 0 then strip_aux fuel (m / 2) (e + 1) else ⟨m, e⟩

/-- The value `m * 2^e` in its unique form with an odd mantissa. -/
def Dyadic.normal (m e : Int) : Dyadic :=
  if m = 0 then ⟨0, 0⟩ else strip_aux (bit_length m.natAbs) m e

/-- The `double` nearest to `m * 2^e`: round to nearest, ties to even, with the
53-bit significand of IEEE 754 binary64. -/
def round53 (m e : Int) : Dyadic :=
  let a := m.natAbs
  let k := bit_length a - 53
  if k = 0 then Dyadic.normal m e
  else
    let q := a / 2 ^ k
    let r := a % 2 ^ k
    let half := 2 ^ (k - 1)
    let q1 := if r < half then q else if half < r then q + 1 else if q % 2 = 0 then q else q + 1
    Dyadic.normal (if m < 0 then -(q1 : Int) else (q1 : Int)) (e + k)

/-- Addition of `double`: the exact sum, rounded. -/
def b64_add (x y : Dyadic) : Dyadic :=
  let e := min x.e y.e
  round53 (x.m * 2 ^ (x.e - e).toNat + y.m * 2 ^ (y.e - e).toNat) e

/-- Negation of `double` (exact). -/
def b64_neg (x : Dyadic) : Dyadic := ⟨-x.m, x.e⟩

/-- Subtraction of `double`: the exact difference, rounded. -/
def b64_sub (x y : Dyadic) : Dyadic := b64_add x (b64_neg y)

/-- Multiplication of `double`: the exact product, rounded. -/
def b64_mul (x y : Dyadic) : Dyadic := round53 (x.m * y.m) (x.e + y.e)

/-- The `double` nearest to `p / q * 2^e` for `q > 0`: the quotient is taken
with three extra bits, the last one recording a non-zero remainder, and then
rounded. -/
def round_quotient (p : Int) (q : Nat) (e : Int) : Dyadic :=
  if q = 0 then ⟨0, 0⟩ else
  let k := 56 + bit_length q - bit_length p.natAbs
  let n := p.natAbs * 2 ^ k
  let t := n / q
  let sticky := if n % q = 0 then 0 else 1
  let m := 2 * t + sticky
  round53 (if p < 0 then -(m : Int) else (m : Int)) (e - k - 1)

/-- Division of `double`: the exact quotient, rounded. -/
def b64_div (x y : Dyadic) : Dyadic :=
  round_quotient (if y.m < 0 then -x.m else x.m) y.m.natAbs (x.e - y.e)

/-- Integer square root, bit by bit from bit `b - 1` down. -/
def isqrt_aux (n : Nat) : Nat → Nat → Nat
  | 0, r => r
  | b + 1, r => if (r + 2 ^ b) * (r + 2 ^ b) ≤ n then isqrt_aux n b (r + 2 ^ b) else isqrt_aux n b r

/-- The integer square root of `n`. -/
def isqrt (n : Nat) : Nat := isqrt_aux n (bit_length n / 2 + 1) 0

/-- Square root of `double` (the `sqrt` of `math.h`, correctly rounded): the
integer square root is taken with extra bits, the last one recording
inexactness, and then rounded. -/
def b64_sqrt (x : Dyadic) : Dyadic :=
  if x.m ≤ 0 then ⟨0, 0⟩ else
  let a := x.m.natAbs
  let k : Nat := 2 * 56 + (if x.e % 2 = 0 then 0 else 1)
  let n := a * 2 ^ k
  let s := isqrt n
  let sticky : Nat := if s * s = n then 0 else 1
  round53 ((2 * s + sticky : Nat) : Int) ((x.e - (k : Int)) / 2 - 1)

/-- The comparison `<=` of `double`. -/
def b64_le (x y : Dyadic) : Bool :=
  let e := min x.e y.e
  decide (x.m * 2 ^ (x.e - e).toNat ≤ y.m * 2 ^ (y.e - e).toNat)

/-- The `double` that a decimal literal `m * 10^e` denotes. -/
def b64_dec (m : Int) (e : Int) : Dyadic :=
  if 0 ≤ e then round53 (m * 10 ^ e.toNat) 0 else round_quotient m (10 ^ (-e).toNat) 0

/-- The conversion `(double)n` of an integer. -/
def b64_of_int (n : Int) : Dyadic := round53 n 0

/-- A value of the binary64 model is a `double` if rounding leaves it as it
is: its mantissa is odd (or it is `0 * 2^0`) and has at most 53 bits. -/
def is_binary64 (c : Dyadic) : Prop := round53 c.m c.e = c

instance is_binary64_decidable (c : Dyadic) : Decidable (is_binary64 c) :=
  inferInstanceAs (Decidable (round53 c.m c.e = c))

/-- The rational value of a `double`. -/
def Dyadic.toRat (x : Dyadic) : ℚ :=
  x.m * (2 : ℚ) ^ x.e

/-- The operations that the kernels use on `double`: `+`, `-`, `*`, `/`, unary
minus, `sqrt`, `<=`, the conversion of an `int`, and decimal literals
(`dec m e` is the literal `m * 10^e`, so `dec 40 (-1)` is `4.0`). -/
structure DoubleOps (D : Type) where
  add : D → D → D
  sub : D → D → D
  mul : D → D → D
  div : D → D → D
  neg : D → D
  sqrt : D → D
  le : D → D → Bool
  of_int : Int → D
  dec : Int → Int → D

/-- The arithmetic of IEEE 754 binary64 on finite values. -/
def binary64 : DoubleOps Dyadic :=
  { add := b64_add, sub := b64_sub, mul := b64_mul, div := b64_div, neg := b64_neg,
    sqrt := b64_sqrt, le := b64_le, of_int := b64_of_int, dec := b64_dec }

/-- The unrounded arithmetic of an ordered field, with a given `sqrt`. -/
def exact_ops (F : Type) [LinearOrderedField F] (sqrt : F → F) : DoubleOps F :=
  { add := fun a b => a + b, sub := fun a b => a - b, mul := fun a b => a * b,
    div := fun a b => a / b, neg := fun a => -a, sqrt := sqrt,
    le := fun a b => decide (a ≤ b), of_int := fun n => (n : F),
    dec := fun m e => (m : F) * (10 : F) ^ e }

/-! ## Mandelbrot on `double` (`mandelbrot.c`) -/

/-- The loop of `mandelbrot_iterations` in the arithmetic `O`, from the state
`(x, y, iter)`:
`while (x*x + y*y <= 4.0 && iter < MAX_ITER) { temp = x*x - y*y + cx; y = 2.0*x*y + cy; x = temp; iter++; }`,
returning the final `iter`. -/
def mandelbrot_while_double {D : Type} (O : DoubleOps D) (cx cy x y : D) (iter : Nat) : Nat :=
  if O.le (O.add (O.mul x x) (O.mul y y)) (O.dec 40 (-1)) = true ∧ iter < MAX_ITER then
    let temp := O.add (O.sub (O.mul x x) (O.mul y y)) cx
    mandelbrot_while_double O cx cy temp (O.add (O.mul (O.mul (O.dec 20 (-1)) x) y) cy)
      (iter + 1)
  else
    iter
termination_by MAX_ITER - iter

/-- Function `int mandelbrot_iterations(double cx, double cy)` in the arithmetic `O`. -/
def mandelbrot_iterations_double {D : Type} (O : DoubleOps D) (cx cy : D) : Nat :=
  mandelbrot_while_double O cx cy (O.dec 0 (-1)) (O.dec 0 (-1)) 0

/-- Facts of `double` arithmetic that the first round of the Mandelbrot loop
relies on, for the values that satisfy `is_double`.  Each holds in IEEE 754
arithmetic on finite values: the test passes at the start `0.0, 0.0`; adding a
`double` to a zero gives that `double`; `10.0` is a `double`; a square is not
negative; and adding a non-negative value to `10.0 * 10.0` gives a sum that
is not `<= 4.0` (rounding is monotone). -/
structure MandelbrotStartLaws {D : Type} (O : DoubleOps D) (is_double : D → Prop) : Prop where
  start_inside :
    O.le (O.add (O.mul (O.dec 0 (-1)) (O.dec 0 (-1))) (O.mul (O.dec 0 (-1)) (O.dec 0 (-1))))
      (O.dec 40 (-1)) = true
  first_x : ∀ c, is_double c →
    O.add (O.sub (O.mul (O.dec 0 (-1)) (O.dec 0 (-1))) (O.mul (O.dec 0 (-1)) (O.dec 0 (-1)))) c
      = c
  first_y : ∀ c, is_double c →
    O.add (O.mul (O.mul (O.dec 20 (-1)) (O.dec 0 (-1))) (O.dec 0 (-1))) c = c
  ten_is_double : is_double (O.dec 100 (-1))
  square_nonneg : ∀ y, O.le (O.dec 0 (-1)) (O.mul y y) = true
  far_sum : ∀ s, O.le (O.dec 0 (-1)) s = true →
    O.le (O.add (O.mul (O.dec 100 (-1)) (O.dec 100 (-1))) s) (O.dec 40 (-1)) = false

/-! ## Kernels that index a buffer with an `int` (`matrix_mult.c`, `mandelbrot.c`) -/

/-- The value of a 32-bit `int` expression whose mathematical value is `v`:
two's complement wrap-around into `[-2^31, 2^31)`. -/
def wrap_int32 (v : Int) : Int :=
  (v + 2147483648) % 4294967296 - 2147483648

/-- The `int` expression `i * N + j` of the kernels, for loop counters
`i`, `j` and an edge length `N`. -/
def int_index (i N j : Nat) : Int :=
  wrap_int32 ((i : Int) * (N : Int) + (j : Int))

/-- The read `l[idx]` with an `int` index.  A read outside the buffer is
undefined in C; here it yields `d`. -/
def cell_read {α : Type} (l : List α) (idx : Int) (d : α) : α :=
  if idx < 0 then d else l.getD idx.toNat d

/-- The write `l[idx] = v` with an `int` index.  A write outside the buffer is
undefined in C; here it leaves the buffer as it is. -/
def cell_write {α : Type} (l : List α) (idx : Int) (v : α) : List α :=
  if idx < 0 then l else l.set idx.toNat v

/-- Function `void matrix_multiply(double* A, double* B, double* C, int N, int threads)`
in the arithmetic `O`.  The `parallel for` over the rows `i` is embedded in
increasing `i`. -/
def matrix_multiply {D : Type} (O : DoubleOps D) (A B C : List D) (N : Nat)
    (_threads : Int) : Matrices D :=
  { A := A
    B := B
    C := for_loop N (fun i C =>
      for_loop N (fun j C =>
        let sum := for_loop N (fun k sum =>
          O.add sum (O.mul (cell_read A (int_index i N k) (O.dec 0 (-1)))
            (cell_read B (int_index k N j) (O.dec 0 (-1))))) (O.dec 0 (-1))
        cell_write C (int_index i N j) sum) C) C }

/-- Function `void initialize_matrix(double* M, int N, double value)`. -/
def initialize_matrix {D : Type} (M : List D) (N : Nat) (value : D) : List D :=
  for_loop N (fun i M => for_loop N (fun j M => cell_write M (int_index i N j) value) M) M

/-- Function `void compute_mandelbrot(int* result, int width, int height, int threads)`
in the arithmetic `O`.  The collapsed `parallel for` is embedded in the order
of the loop nest. -/
def compute_mandelbrot {D : Type} (O : DoubleOps D) (result : List Int)
    (width height : Nat) (_threads : Int) : List Int :=
  let x_min : D := O.neg (O.dec 25 (-1))
  let x_max : D := O.dec 10 (-1)
  let y_min : D := O.neg (O.dec 10 (-1))
  let y_max : D := O.dec 10 (-1)
  for_loop height (fun py result =>
    for_loop width (fun px result =>
      let cx := O.add x_min (O.div (O.mul (O.sub x_max x_min) (O.of_int px)) (O.of_int width))
      let cy := O.add y_min (O.div (O.mul (O.sub y_max y_min) (O.of_int py)) (O.of_int height))
      cell_write result (int_index py width px)
        ((mandelbrot_iterations_double O cx cy : Nat) : Int)) result) result

/-- Facts of `double` arithmetic on small integers, which IEEE 754 binary64
represents exactly up to `2^53`: `0.0` is the integer 0, and adding
`1.0 * 2.0` to the even integer `2 k` gives the even integer `2 (k + 1)`. -/
structure SmallIntegerLaws {D : Type} (O : DoubleOps D) : Prop where
  zero_is_int : O.dec 0 (-1) = O.of_int 0
  add_two : ∀ k : Nat, 2 * (k + 1) ≤ 9007199254740992 →
    O.add (O.of_int (2 * (k : Int))) (O.mul (O.dec 10 (-1)) (O.dec 20 (-1)))
      = O.of_int (2 * ((k : Int) + 1))

/-! ## N-body on `double` (`nbody.c`) -/

/-- Facts of `double` arithmetic on which the symmetry of the two-body update
rests.  Each holds in IEEE 754 arithmetic on finite values, where rounding is
symmetric under a change of sign: `a - b = -(b - a)`, `(-a) * (-a) = a * a`,
`a * (-b) = -(a * b)`, `(-a) / b = -(a / b)`, `0.0 + (-a) = -(0.0 + a)` and
`-(-a) = a`. -/
structure SignSymmetryLaws {D : Type} (O : DoubleOps D) : Prop where
  neg_neg : ∀ a, O.neg (O.neg a) = a
  sub_swap : ∀ a b, O.sub a b = O.neg (O.sub b a)
  mul_neg_neg : ∀ a, O.mul (O.neg a) (O.neg a) = O.mul a a
  mul_neg_right : ∀ a b, O.mul a (O.neg b) = O.neg (O.mul a b)
  div_neg_left : ∀ a b, O.div (O.neg a) b = O.neg (O.div a b)
  zero_add_neg : ∀ a, O.add (O.dec 0 (-1)) (O.neg a) = O.neg (O.add (O.dec 0 (-1)) a)

/-- How one call of `merge_sort_parallel` treats its two halves. -/
inductive HalvesMode where
  /-- The test `left < right` fails: the call returns at once. -/
  | no_recursion : HalvesMode
  /-- Two `#pragma omp task` calls, one per half, then `#pragma omp taskwait`,
  then `merge(arr, temp, left, mid, right)`. -/
  | omp_tasks (mid : Nat) : HalvesMode
  /-- Two plain recursive calls, one per half, then
  `merge(arr, temp, left, mid, right)`. -/
  | serial_calls (mid : Nat) : HalvesMode
deriving DecidableEq

/-- The branch that `merge_sort_parallel(arr, temp, left, right)` takes; it
depends on `left` and `right` only. -/
def merge_sort_parallel_mode (left right : Nat) : HalvesMode :=
  if left < right then
    let mid := left + (right - left) / 2
    let size := right - left + 1
    if size > TASK_THRESHOLD then
      HalvesMode.omp_tasks mid
    else
      HalvesMode.serial_calls mid
  else
    HalvesMode.no_recursion

/-! ## Allocation sizes in the harness (`main` of `mandelbrot.c`, `matrix_mult.c`) -/

/-- The conversion of an integer value to the 64-bit `size_t`. -/
def to_size_t (v : Int) : Nat :=
  (v % 18446744073709551616).toNat

/-- The argument of `safe_malloc` in `main` of `mandelbrot.c`:
`width * height * sizeof(int)` with `int width = size, height = size`.  The
product `width * height` is an `int` product; it is then converted to `size_t`
and multiplied by `sizeof(int) = 4`. -/
def mandelbrot_malloc_bytes (size : Int) : Nat :=
  let width := size
  let height := size
  (to_size_t (wrap_int32 (width * height)) * 4) % 18446744073709551616

/-- The argument of `safe_malloc` in `main` of `matrix_mult.c`:
`(size_t)N * N * sizeof(double)`, every product taken in `size_t`. -/
def matrix_malloc_bytes (N : Int) : Nat :=
  (to_size_t N * to_size_t N % 18446744073709551616 * 8) % 18446744073709551616

/-! ## Argument validation (`common_utils.h`) -/

/-- What a call of `validate_args` ends in: the process is ended by `exit`
inside the call, or the call returns a value, having stored `*size` and
`*threads`.  Both carry the lines written to the error stream. -/
inductive ValidateResult where
  | exited (status : Int) (stderr : List String) : ValidateResult
  | returned (value : Int) (size threads : Int) (stderr : List String) : ValidateResult
deriving DecidableEq

/-- Function `void print_usage(const char* program_name, const char* algo_name)`: three
lines on the error stream, then `exit(1)`. -/
def print_usage (program_name algo_name : String) : ValidateResult :=
  ValidateResult.exited 1
    ["Usage: " ++ program_name ++ " <problem_size> <num_threads>\n",
     "Example: " ++ program_name ++ " 1024 8\n",
     "\nAlgorithm: " ++ algo_name ++ "\n"]

/-- Function `int validate_args(int argc, char* argv[], int* size, int* threads, ...)`.
The library function `atoi` is a parameter. -/
def validate_args (atoi : String → Int) (argc : Int) (argv : List String)
    (prog_name algo_name : String) : ValidateResult :=
  if argc ≠ 3 then
    print_usage prog_name algo_name
  else
    let size := atoi (argv.getD 1 "")
    let threads := atoi (argv.getD 2 "")
    if size ≤ 0 then
      ValidateResult.returned 0 size threads ["Error: Problem size must be positive\n"]
    else if threads ≤ 0 then
      ValidateResult.returned 0 size threads ["Error: Thread count must be positive\n"]
    else
      ValidateResult.returned 1 size threads []

/-- How the first statement of every `main` ends:
`if (!validate_args(argc, argv, &N, &threads, argv[0], "...")) return 1;`. -/
inductive StartResult where
  | process_ended (status : Int) (stderr : List String) : StartResult
  | run_proceeds (N threads : Int) : StartResult
deriving DecidableEq

/-- The first statement of `main` (here with the algorithm name of
`merge_sort.c`; the five programs differ in that name only). -/
def main_start (atoi : String → Int) (argc : Int) (argv : List String) : StartResult :=
  match validate_args atoi argc argv (argv.getD 0 "") "Merge Sort" with
  | ValidateResult.exited status err => StartResult.process_ended status err
  | ValidateResult.returned value N threads err =>
    if value = 0 then StartResult.process_ended 1 err else StartResult.run_proceeds N threads

/-- The digits part of the model of `atoi`: decimal digits are accumulated until
the first character that is no digit. -/
def atoi_digits (acc : Int) : List Char → Int
  | [] => acc
  | c :: cs => if c.isDigit then atoi_digits (acc * 10 + ((c.toNat : Int) - 48)) cs else acc

/-- A model of the C library function `atoi`, used to run `validate_args` on
concrete command lines: leading white space is skipped, an optional sign is
read, then decimal digits; a string without digits yields `0`.  The result is
not reduced to the range of `int` (beyond it the C function is undefined), and
of the white space of C the vertical tab and the form feed are not skipped. -/
def atoi_model (s : String) : Int :=
  match s.data.dropWhile Char.isWhitespace with
  | '-' :: cs => -atoi_digits 0 cs
  | '+' :: cs => atoi_digits 0 cs
  | cs => atoi_digits 0 cs

/-! ## Monte Carlo (`monte_carlo.c`) -/

theorem seg_of_le (l : List Int) {a b : Nat} (h : b ≤ a) : seg l a b = [] := by
  simp [seg, Nat.sub_eq_zero_of_le h]

theorem seg_cons (l : List Int) {a b : Nat} (hab : a < b) (hb : b ≤ l.length) :
    seg l a b = l.getD a 0 :: seg l (a + 1) b := by
  have ha : a < l.length := by omega
  unfold seg
  rw [List.drop_eq_getElem_cons ha]
  have : b - a = (b - (a + 1)) + 1 := by omega
  rw [this, List.take_succ_cons]
  simp [List.getD_eq_getElem?_getD, List.getElem?_eq_getElem ha]

theorem length_seg (l : List Int) {a b : Nat} (hb : b ≤ l.length) :
    (seg l a b).length = b - a := by
  simp [seg]; omega

theorem seg_full (l : List Int) : seg l 0 l.length = l := by
  simp [seg]

theorem take_append_seg_append_drop (l : List Int) {a b : Nat} (hab : a ≤ b) :
    l.take a ++ seg l a b ++ l.drop b = l := by
  unfold seg
  have : l.drop b = (l.drop a).drop (b - a) := by
    rw [List.drop_drop]; congr 1; omega
  rw [this, List.append_assoc, List.take_append_drop, List.take_append_drop]

theorem seg_append_seg (l : List Int) {a m b : Nat} (ham : a ≤ m) (hmb : m ≤ b) :
    seg l a m ++ seg l m b = seg l a b := by
  unfold seg
  have h1 : b - a = (m - a) + (b - m) := by omega
  have h2 : l.drop m = (l.drop a).drop (m - a) := by
    rw [List.drop_drop]; congr 1; omega
  rw [h1, h2, List.take_add]

theorem seg_of_parts (p m s : List Int) :
    seg (p ++ m ++ s) p.length (p.length + m.length) = m := by
  simp [seg]

theorem take_set_succ (l : List Int) (k : Nat) (v : Int) (hk : k < l.length) :
    (l.set k v).take (k + 1) = l.take k ++ [v] := by
  rw [List.set_eq_take_append_cons_drop, if_pos hk]
  rw [List.take_append_eq_append_take]
  simp [List.length_take, Nat.min_eq_left (Nat.le_of_lt hk)]

theorem drop_set_of_lt (l : List Int) (k n : Nat) (v : Int) (hk : k < n) :
    (l.set k v).drop n = l.drop n := by
  exact List.drop_set_of_lt _ _ hk

/-! ### The loops of `merge` -/

theorem merge_while_rest_spec (arr : List Int) (bound : Nat) (hb : bound < arr.length) :
    ∀ (n : Nat) (temp : List Int) (i k : Nat), bound + 1 - i = n → i ≤ bound + 1 →
      k + n ≤ temp.length →
      merge_while_rest arr bound temp i k =
        (temp.take k ++ seg arr i (bound + 1) ++ temp.drop (k + n), bound + 1, k + n) := by
  intro n
  induction n with
  | zero =>
    intro temp i k hn hi hk
    have : i = bound + 1 := by omega
    subst this
    rw [merge_while_rest, if_neg (by omega), seg_of_le _ (le_refl _)]
    simp
  | succ n ih =>
    intro temp i k hn hi hk
    have hib : i ≤ bound := by omega
    rw [merge_while_rest, if_pos hib]
    rw [ih (temp.set k (arr.getD i 0)) (i + 1) (k + 1) (by omega) (by omega)
      (by simp; omega)]
    rw [take_set_succ _ _ _ (by omega), drop_set_of_lt _ _ _ _ (by omega),
      seg_cons arr (show i < bound + 1 by omega) (by omega)]
    simp [Nat.add_assoc, Nat.add_comm 1 n]

theorem merge_while_rest_done (arr : List Int) (bound : Nat) (temp : List Int) (i k : Nat)
    (h : bound < i) : merge_while_rest arr bound temp i k = (temp, i, k) := by
  rw [merge_while_rest, if_neg (by omega)]

theorem two_pointer_merge_nil_right (xs : List Int) : two_pointer_merge xs [] = xs := by
  cases xs <;> simp [two_pointer_merge]

theorem merge_fill_spec (arr : List Int) (mid right : Nat) (hm : mid < arr.length)
    (hr : right < arr.length) :
    ∀ (n : Nat) (temp : List Int) (i j k : Nat), (mid + 1 - i) + (right + 1 - j) = n →
      i ≤ mid + 1 → j ≤ right + 1 → k + n ≤ temp.length →
      merge_fill arr mid right temp i j k =
        temp.take k ++ two_pointer_merge (seg arr i (mid + 1)) (seg arr j (right + 1))
          ++ temp.drop (k + n) := by
  intro n
  induction n with
  | zero =>
    intro temp i j k hn hi hj hk
    have h1 : i = mid + 1 := by omega
    have h2 : j = right + 1 := by omega
    subst h1; subst h2
    unfold merge_fill
    rw [merge_while_both, if_neg (by omega)]
    simp only
    rw [merge_while_rest_done arr mid temp (mid + 1) k (by omega)]
    simp only
    rw [merge_while_rest_done arr right temp (right + 1) k (by omega)]
    simp [seg_of_le, two_pointer_merge]
  | succ n ih =>
    intro temp i j k hn hi hj hk
    by_cases hc : i ≤ mid ∧ j ≤ right
    · obtain ⟨hi1, hj1⟩ := hc
      have hstep : ∀ v i2 j2, (mid + 1 - i2) + (right + 1 - j2) = n → i2 ≤ mid + 1 →
          j2 ≤ right + 1 →
          merge_fill arr mid right (temp.set k v) i2 j2 (k + 1) =
            temp.take k ++ v :: two_pointer_merge (seg arr i2 (mid + 1)) (seg arr j2 (right + 1))
              ++ temp.drop (k + (n + 1)) := by
        intro v i2 j2 h1 h2 h3
        rw [ih (temp.set k v) i2 j2 (k + 1) h1 h2 h3 (by simp; omega)]
        rw [take_set_succ _ _ _ (by omega), drop_set_of_lt _ _ _ _ (by omega)]
        simp [Nat.add_assoc, Nat.add_comm 1 n]
      rw [seg_cons arr (show i < mid + 1 by omega) (by omega),
        seg_cons arr (show j < right + 1 by omega) (by omega)]
      unfold merge_fill
      rw [merge_while_both, if_pos ⟨hi1, hj1⟩]
      rw [two_pointer_merge]
      by_cases hle : arr.getD i 0 ≤ arr.getD j 0
      · rw [if_pos hle, if_pos hle]
        have := hstep (arr.getD i 0) (i + 1) j (by omega) (by omega) (by omega)
        unfold merge_fill at this
        rw [this, seg_cons arr (show j < right + 1 by omega) (by omega)]
      · rw [if_neg hle, if_neg hle]
        have := hstep (arr.getD j 0) i (j + 1) (by omega) (by omega) (by omega)
        unfold merge_fill at this
        rw [this, seg_cons arr (show i < mid + 1 by omega) (by omega)]
    · unfold merge_fill
      rw [merge_while_both, if_neg hc]
      simp only
      by_cases hi1 : i ≤ mid
      · have hj1 : j = right + 1 := by omega
        subst hj1
        rw [merge_while_rest_spec arr mid hm (n + 1) temp i k (by omega) hi (by omega)]
        simp only
        rw [merge_while_rest_done arr right _ (right + 1) _ (by omega)]
        simp [seg_of_le, two_pointer_merge_nil_right]
      · have hi2 : i = mid + 1 := by omega
        subst hi2
        rw [merge_while_rest_done arr mid temp (mid + 1) k (by omega)]
        simp only
        rw [merge_while_rest_spec arr right hr (n + 1) temp j k (by omega) hj (by omega)]
        simp [seg_of_le, two_pointer_merge]

theorem merge_copy_back_spec (temp : List Int) (right : Nat) (hr : right < temp.length) :
    ∀ (n : Nat) (arr : List Int) (i : Nat), right + 1 - i = n → i ≤ right + 1 →
      right < arr.length →
      merge_copy_back temp right arr i =
        arr.take i ++ seg temp i (right + 1) ++ arr.drop (right + 1) := by
  intro n
  induction n with
  | zero =>
    intro arr i hn hi hra
    have : i = right + 1 := by omega
    subst this
    rw [merge_copy_back, if_neg (by omega), seg_of_le _ (le_refl _)]
    simp
  | succ n ih =>
    intro arr i hn hi hra
    have hib : i ≤ right := by omega
    rw [merge_copy_back, if_pos hib]
    rw [ih (arr.set i (temp.getD i 0)) (i + 1) (by omega) (by omega) (by simp; omega)]
    rw [take_set_succ _ _ _ (by omega), drop_set_of_lt _ _ _ _ (by omega),
      seg_cons temp (show i < right + 1 by omega) (by omega)]
    simp

/-! ### Properties of the two-pointer merge -/

theorem two_pointer_merge_perm (xs ys : List Int) :
    (two_pointer_merge xs ys).Perm (xs ++ ys) := by
  induction xs, ys using two_pointer_merge.induct with
  | case1 ys => simp [two_pointer_merge]
  | case2 x xs => simp [two_pointer_merge]
  | case3 x xs y ys hle ih =>
    rw [two_pointer_merge, if_pos hle]
    exact List.Perm.cons x ih
  | case4 x xs y ys hle ih =>
    rw [two_pointer_merge, if_neg hle]
    refine (List.Perm.cons y ih).trans ?_
    simpa using (@List.perm_middle _ y (x :: xs) ys).symm

theorem two_pointer_merge_length (xs ys : List Int) :
    (two_pointer_merge xs ys).length = xs.length + ys.length := by
  simpa using (two_pointer_merge_perm xs ys).length_eq

theorem two_pointer_merge_sorted (xs ys : List Int) (hx : xs.Sorted (· ≤ ·))
    (hy : ys.Sorted (· ≤ ·)) : (two_pointer_merge xs ys).Sorted (· ≤ ·) := by
  induction xs, ys using two_pointer_merge.induct with
  | case1 ys => simpa [two_pointer_merge] using hy
  | case2 x xs => simpa [two_pointer_merge] using hx
  | case3 x xs y ys hle ih =>
    rw [two_pointer_merge, if_pos hle]
    have hx2 := List.sorted_cons.mp hx
    have hy2 := List.sorted_cons.mp hy
    refine List.sorted_cons.mpr ⟨?_, ih hx2.2 hy⟩
    intro b hb
    rcases List.mem_append.mp ((two_pointer_merge_perm xs (y :: ys)).mem_iff.mp hb) with h | h
    · exact hx2.1 b h
    · rcases List.mem_cons.mp h with h | h
      · exact h ▸ hle
      · exact le_trans hle (hy2.1 b h)
  | case4 x xs y ys hle ih =>
    rw [two_pointer_merge, if_neg hle]
    have hx2 := List.sorted_cons.mp hx
    have hy2 := List.sorted_cons.mp hy
    have hyx : y ≤ x := le_of_lt (not_le.mp hle)
    refine List.sorted_cons.mpr ⟨?_, ih hx hy2.2⟩
    intro b hb
    rcases List.mem_append.mp ((two_pointer_merge_perm (x :: xs) ys).mem_iff.mp hb) with h | h
    · rcases List.mem_cons.mp h with h | h
      · exact h ▸ hyx
      · exact le_trans hyx (hx2.1 b h)
    · exact hy2.1 b h

theorem two_pointer_merge_eq_list_merge (xs ys : List Int) :
    two_pointer_merge xs ys = List.merge xs ys (fun a b => decide (a ≤ b)) := by
  induction xs, ys using two_pointer_merge.induct with
  | case1 ys => simp [two_pointer_merge]
  | case2 x xs => simp [two_pointer_merge]
  | case3 x xs y ys hle ih =>
    rw [two_pointer_merge, if_pos hle, List.cons_merge_cons, if_pos (by simpa using hle), ih]
  | case4 x xs y ys hle ih =>
    rw [two_pointer_merge, if_neg hle, List.cons_merge_cons, if_neg (by simpa using hle), ih]

theorem two_pointer_merge_sublist_left (xs ys : List Int) :
    xs.Sublist (two_pointer_merge xs ys) := by
  induction xs, ys using two_pointer_merge.induct with
  | case1 ys => simp
  | case2 x xs => simp [two_pointer_merge]
  | case3 x xs y ys hle ih =>
    rw [two_pointer_merge, if_pos hle]
    exact List.Sublist.cons₂ x ih
  | case4 x xs y ys hle ih =>
    rw [two_pointer_merge, if_neg hle]
    exact List.Sublist.cons y ih

theorem two_pointer_merge_sublist_right (xs ys : List Int) :
    ys.Sublist (two_pointer_merge xs ys) := by
  induction xs, ys using two_pointer_merge.induct with
  | case1 ys => simp [two_pointer_merge]
  | case2 x xs => simp
  | case3 x xs y ys hle ih =>
    rw [two_pointer_merge, if_pos hle]
    exact List.Sublist.cons x ih
  | case4 x xs y ys hle ih =>
    rw [two_pointer_merge, if_neg hle]
    exact List.Sublist.cons₂ y ih

/-! ### Specification of `merge` -/

theorem merge_arr_temp (arr temp : List Int) (left mid right : Nat) (h1 : left ≤ mid)
    (h2 : mid < right) (h3 : right < arr.length) (h4 : right < temp.length) :
    (merge arr temp left mid right).arr =
        arr.take left ++ two_pointer_merge (seg arr left (mid + 1)) (seg arr (mid + 1) (right + 1))
          ++ arr.drop (right + 1) ∧
      (merge arr temp left mid right).temp =
        temp.take left ++ two_pointer_merge (seg arr left (mid + 1)) (seg arr (mid + 1) (right + 1))
          ++ temp.drop (right + 1) := by
  have hfill := merge_fill_spec arr mid right (by omega) h3 (right + 1 - left) temp left
    (mid + 1) left (by omega) (by omega) (by omega) (by omega)
  have hk : left + (right + 1 - left) = right + 1 := by omega
  rw [hk] at hfill
  have hlen : (two_pointer_merge (seg arr left (mid + 1)) (seg arr (mid + 1) (right + 1))).length
      = right + 1 - left := by
    rw [two_pointer_merge_length, length_seg _ (by omega), length_seg _ (by omega)]
    omega
  have hlt : (temp.take left).length = left := by
    rw [List.length_take]; omega
  refine ⟨?_, hfill⟩
  unfold merge
  simp only
  rw [merge_copy_back_spec _ right (by rw [hfill]; simp; omega) (right + 1 - left) arr left rfl
    (by omega) h3]
  congr 2
  rw [hfill]
  have := seg_of_parts (temp.take left)
    (two_pointer_merge (seg arr left (mid + 1)) (seg arr (mid + 1) (right + 1)))
    (temp.drop (right + 1))
  rw [hlt, hlen, hk] at this
  exact this

/-! ### Frame lemmas -/

theorem seg_congr_drop {l l2 : List Int} {a : Nat} (b : Nat) (h : l.drop a = l2.drop a) :
    seg l a b = seg l2 a b := by
  unfold seg; rw [h]

theorem seg_congr_take {l l2 : List Int} (a : Nat) {b : Nat} (h : l.take b = l2.take b) :
    seg l a b = seg l2 a b := by
  unfold seg
  rw [← List.drop_take, ← List.drop_take, h]

theorem take_congr_of_le {l l2 : List Int} {a b : Nat} (hab : a ≤ b)
    (h : l.take b = l2.take b) : l.take a = l2.take a := by
  have h1 : l.take a = (l.take b).take a := by rw [List.take_take, Nat.min_eq_left hab]
  have h2 : l2.take a = (l2.take b).take a := by rw [List.take_take, Nat.min_eq_left hab]
  rw [h1, h2, h]

theorem drop_congr_of_le {l l2 : List Int} {a b : Nat} (hab : a ≤ b)
    (h : l.drop a = l2.drop a) : l.drop b = l2.drop b := by
  have h1 : l.drop b = (l.drop a).drop (b - a) := by
    rw [List.drop_drop]; congr 1; omega
  have h2 : l2.drop b = (l2.drop a).drop (b - a) := by
    rw [List.drop_drop]; congr 1; omega
  rw [h1, h2, h]

theorem replace_seg_frame (l m : List Int) {a b : Nat} (hab : a ≤ b) (hb : b ≤ l.length)
    (hm : m.length = b - a) :
    (l.take a ++ m ++ l.drop b).take a = l.take a ∧
      (l.take a ++ m ++ l.drop b).drop b = l.drop b ∧
      (l.take a ++ m ++ l.drop b).length = l.length ∧
      seg (l.take a ++ m ++ l.drop b) a b = m := by
  have hta : (l.take a).length = a := by rw [List.length_take]; omega
  refine ⟨?_, ?_, ?_, ?_⟩
  · rw [List.append_assoc, List.take_append_of_le_length (by omega)]
    rw [List.take_take]; simp
  · have : (l.take a ++ m).length = b := by simp [hta, hm]; omega
    rw [List.drop_append_eq_append_drop, this, Nat.sub_self, List.drop_zero,
      List.drop_of_length_le (by omega), List.nil_append]
  · simp [hm]; omega
  · have := seg_of_parts (l.take a) m (l.drop b)
    rw [hta, hm] at this
    have hk : a + (b - a) = b := by omega
    rw [hk] at this
    exact this

theorem merge_sort_step (arr temp : List Int) (left mid right : Nat) (b1 b2 : Buffers)
    (h1 : left ≤ mid) (h2 : mid < right) (h3 : right < arr.length) (h4 : right < temp.length)
    (s1 : SortsRange arr temp left mid b1)
    (s2 : SortsRange b1.arr b1.temp (mid + 1) right b2) :
    SortsRange arr temp left right (merge b2.arr b2.temp left mid right) := by
  have la1 := s1.arr_length
  have la2 := s2.arr_length
  have lt1 := s1.temp_length
  have lt2 := s2.temp_length
  obtain ⟨ha, ht⟩ := merge_arr_temp b2.arr b2.temp left mid right h1 h2 (by omega) (by omega)
  have hL : seg b2.arr left (mid + 1) = seg b1.arr left (mid + 1) :=
    seg_congr_take left s2.arr_take
  have hR : seg b1.arr (mid + 1) (right + 1) = seg arr (mid + 1) (right + 1) :=
    seg_congr_drop (right + 1) s1.arr_drop
  have hmlen : (two_pointer_merge (seg b2.arr left (mid + 1))
      (seg b2.arr (mid + 1) (right + 1))).length = right + 1 - left := by
    rw [two_pointer_merge_length, length_seg _ (by omega), length_seg _ (by omega)]
    omega
  obtain ⟨fa1, fa2, fa3, fa4⟩ := replace_seg_frame b2.arr _ (show left ≤ right + 1 by omega)
    (by omega) hmlen
  obtain ⟨ft1, ft2, ft3, _⟩ := replace_seg_frame b2.temp _ (show left ≤ right + 1 by omega)
    (by omega) hmlen
  rw [← ha] at fa1 fa2 fa3 fa4
  rw [← ht] at ft1 ft2 ft3
  refine ⟨?_, ?_, ?_, ?_, ?_, ?_, ?_, ?_⟩
  · rw [fa1, take_congr_of_le (show left ≤ mid + 1 by omega) s2.arr_take, s1.arr_take]
  · rw [fa2, s2.arr_drop, drop_congr_of_le (show mid + 1 ≤ right + 1 by omega) s1.arr_drop]
  · omega
  · rw [ft1, take_congr_of_le (show left ≤ mid + 1 by omega) s2.temp_take, s1.temp_take]
  · rw [ft2, s2.temp_drop, drop_congr_of_le (show mid + 1 ≤ right + 1 by omega) s1.temp_drop]
  · omega
  · rw [fa4]
    exact two_pointer_merge_sorted _ _ (hL ▸ s1.sorted) s2.sorted
  · rw [fa4]
    refine (two_pointer_merge_perm _ _).trans ?_
    rw [← seg_append_seg arr (show left ≤ mid + 1 by omega) (show mid + 1 ≤ right + 1 by omega)]
    refine List.Perm.append ?_ ?_
    · rw [hL]; exact s1.perm
    · rw [← hR]; exact s2.perm

theorem sortsRange_single (arr temp : List Int) (left : Nat) (h : left < arr.length) :
    SortsRange arr temp left left { arr := arr, temp := temp } := by
  refine ⟨rfl, rfl, rfl, rfl, rfl, rfl, ?_, List.Perm.refl _⟩
  rw [seg_cons arr (Nat.lt_succ_self left) (by omega), seg_of_le _ (le_refl _)]
  exact List.sorted_singleton _

theorem merge_sort_parallel_spec :
    ∀ (n : Nat) (arr temp : List Int) (left right : Nat), right - left = n → left ≤ right →
      right < arr.length → right < temp.length →
      SortsRange arr temp left right (merge_sort_parallel arr temp left right) := by
  intro n
  induction n using Nat.strong_induction_on with
  | _ n ih =>
    intro arr temp left right hn hlr ha ht
    rw [merge_sort_parallel]
    by_cases hlt : left < right
    · rw [if_pos hlt]
      have hmid1 : left ≤ left + (right - left) / 2 := by omega
      have hmid2 : left + (right - left) / 2 < right := by omega
      have s1 := ih (left + (right - left) / 2 - left) (by omega) arr temp left
        (left + (right - left) / 2) rfl hmid1 (by omega) (by omega)
      have s2 := ih (right - (left + (right - left) / 2 + 1)) (by omega)
        (merge_sort_parallel arr temp left (left + (right - left) / 2)).arr
        (merge_sort_parallel arr temp left (left + (right - left) / 2)).temp
        (left + (right - left) / 2 + 1) right rfl (by omega)
        (by rw [s1.arr_length]; exact ha) (by rw [s1.temp_length]; exact ht)
      have s3 := merge_sort_step arr temp left (left + (right - left) / 2) right _ _ hmid1 hmid2
        ha ht s1 s2
      simp only
      split <;> exact s3
    · rw [if_neg hlt]
      have : left = right := by omega
      subst this
      exact sortsRange_single arr temp left ha

theorem merge_sort_sortsRange (arr temp : List Int) (N : Nat) (threads : Int) (hN : 1 ≤ N)
    (ha : arr.length = N) (ht : temp.length = N) :
    SortsRange arr temp 0 (N - 1) (merge_sort arr temp N threads) :=
  merge_sort_parallel_spec (N - 1) arr temp 0 (N - 1) rfl (Nat.zero_le _) (by omega) (by omega)

theorem seg_whole (l : List Int) {n : Nat} (h : l.length = n) (hn : 1 ≤ n) :
    seg l 0 (n - 1 + 1) = l := by
  have : n - 1 + 1 = l.length := by omega
  rw [this, seg_full]

theorem merge_sort_example :
    merge_sort [3, 1, 2, 1, -4] [7, 7, 7, 7, 7] 5 4 =
      { arr := [-4, 1, 1, 2, 3], temp := [-4, 1, 1, 2, 3] } := by
  simp [merge_sort, merge_sort_parallel, merge, merge_fill, merge_while_both, merge_while_rest,
    merge_copy_back, TASK_THRESHOLD]

/-- C1: for an array `arr` of length `N >= 1`, a scratch array `temp` of the
same length and any thread count, after `merge_sort(arr, temp, N, threads)`
the array still has `N` cells and is non-decreasing: `arr[i] <= arr[i+1]` for
every `0 <= i < N - 1`. -/
theorem merge_sort_nondecreasing (arr temp : List Int) (N : Nat) (threads : Int)
    (hN : 1 ≤ N) (ha : arr.length = N) (ht : temp.length = N) :
    (merge_sort arr temp N threads).arr.length = N ∧
      ∀ i : Nat, i + 1 < N →
        (merge_sort arr temp N threads).arr.getD i 0 ≤
          (merge_sort arr temp N threads).arr.getD (i + 1) 0 := by
  have s := merge_sort_sortsRange arr temp N threads hN ha ht
  have hlen : (merge_sort arr temp N threads).arr.length = N := by rw [s.arr_length, ha]
  have hsorted := s.sorted
  rw [seg_whole _ hlen hN] at hsorted
  refine ⟨hlen, ?_⟩
  intro i hi
  rw [List.getD_eq_getElem _ _ (by omega), List.getD_eq_getElem _ _ (by omega)]
  exact List.pairwise_iff_getElem.mp hsorted i (i + 1) (by omega) (by omega) (by omega)

theorem merge_sort_nondecreasing_witness :
    (1 ≤ 5 ∧ [3, 1, 2, 1, -4].length = 5 ∧ [7, 7, 7, 7, 7].length = 5) ∧
      ((merge_sort [3, 1, 2, 1, -4] [7, 7, 7, 7, 7] 5 4).arr.length = 5 ∧
        ∀ i : Nat, i + 1 < 5 →
          (merge_sort [3, 1, 2, 1, -4] [7, 7, 7, 7, 7] 5 4).arr.getD i 0 ≤
            (merge_sort [3, 1, 2, 1, -4] [7, 7, 7, 7, 7] 5 4).arr.getD (i + 1) 0) :=
  ⟨by decide, merge_sort_nondecreasing [3, 1, 2, 1, -4] [7, 7, 7, 7, 7] 5 4 (by decide) rfl rfl⟩

/-- C2: for an array `arr` of length `N >= 1`, the contents of `arr` after
`merge_sort(arr, temp, N, threads)` are a permutation of its contents before
the call, every value occurring the same number of times, whatever the
scratch array `temp` (of length `N`) holds initially. -/
theorem merge_sort_permutation (arr temp : List Int) (N : Nat) (threads : Int)
    (hN : 1 ≤ N) (ha : arr.length = N) (ht : temp.length = N) :
    (merge_sort arr temp N threads).arr.Perm arr ∧
      ∀ v : Int, (merge_sort arr temp N threads).arr.count v = arr.count v := by
  have s := merge_sort_sortsRange arr temp N threads hN ha ht
  have hlen : (merge_sort arr temp N threads).arr.length = N := by rw [s.arr_length, ha]
  have hperm := s.perm
  rw [seg_whole _ hlen hN, seg_whole _ ha hN] at hperm
  exact ⟨hperm, fun v => hperm.count_eq v⟩

theorem merge_sort_permutation_witness :
    (1 ≤ 5 ∧ [3, 1, 2, 1, -4].length = 5 ∧ [7, 8, 9, 10, 11].length = 5) ∧
      ((merge_sort [3, 1, 2, 1, -4] [7, 8, 9, 10, 11] 5 2).arr.Perm [3, 1, 2, 1, -4] ∧
        ∀ v : Int, (merge_sort [3, 1, 2, 1, -4] [7, 8, 9, 10, 11] 5 2).arr.count v =
          [3, 1, 2, 1, -4].count v) :=
  ⟨by decide, merge_sort_permutation [3, 1, 2, 1, -4] [7, 8, 9, 10, 11] 5 2 (by decide) rfl rfl⟩

/-- C3: the merge step is the stable two-pointer merge.  For
`left <= mid < right` inside the buffers, `merge(arr, temp, left, mid, right)`
leaves in `arr[left..right]` the two-pointer merge of the runs
`arr[left..mid]` and `arr[mid+1..right]`, in which a tie between the current
heads emits the left-run element first; the cells of `arr` outside
`[left, right]` keep their values, and each run keeps its relative order
(it is a subsequence of the merged range). -/
theorem merge_is_stable_two_pointer_merge (arr temp : List Int) (left mid right : Nat)
    (h1 : left ≤ mid) (h2 : mid < right) (h3 : right < arr.length)
    (h4 : temp.length = arr.length) :
    seg (merge arr temp left mid right).arr left (right + 1) =
        two_pointer_merge (seg arr left (mid + 1)) (seg arr (mid + 1) (right + 1)) ∧
      (merge arr temp left mid right).arr =
        arr.take left ++ two_pointer_merge (seg arr left (mid + 1)) (seg arr (mid + 1) (right + 1))
          ++ arr.drop (right + 1) ∧
      (∀ (x y : Int) (xs ys : List Int), x = y →
        two_pointer_merge (x :: xs) (y :: ys) = x :: two_pointer_merge xs (y :: ys)) ∧
      (seg arr left (mid + 1)).Sublist (seg (merge arr temp left mid right).arr left (right + 1)) ∧
      (seg arr (mid + 1) (right + 1)).Sublist
        (seg (merge arr temp left mid right).arr left (right + 1)) := by
  obtain ⟨ha, _⟩ := merge_arr_temp arr temp left mid right h1 h2 h3 (by omega)
  have hmlen : (two_pointer_merge (seg arr left (mid + 1))
      (seg arr (mid + 1) (right + 1))).length = right + 1 - left := by
    rw [two_pointer_merge_length, length_seg _ (by omega), length_seg _ (by omega)]
    omega
  obtain ⟨_, _, _, hseg⟩ := replace_seg_frame arr _ (show left ≤ right + 1 by omega)
    (by omega) hmlen
  rw [← ha] at hseg
  refine ⟨hseg, ha, ?_, ?_, ?_⟩
  · intro x y xs ys hxy
    rw [two_pointer_merge, if_pos (le_of_eq hxy)]
  · rw [hseg]; exact two_pointer_merge_sublist_left _ _
  · rw [hseg]; exact two_pointer_merge_sublist_right _ _

theorem merge_is_stable_two_pointer_merge_witness :
    (1 ≤ 2 ∧ 2 < 4 ∧ 4 < [9, 2, 5, 1, 5, 0].length ∧
        [7, 7, 7, 7, 7, 7].length = [9, 2, 5, 1, 5, 0].length) ∧
      (merge [9, 2, 5, 1, 5, 0] [7, 7, 7, 7, 7, 7] 1 2 4).arr = [9, 1, 2, 5, 5, 0] := by
  refine ⟨by decide, ?_⟩
  have h := (merge_is_stable_two_pointer_merge [9, 2, 5, 1, 5, 0] [7, 7, 7, 7, 7, 7] 1 2 4
    (by decide) (by decide) (by decide) rfl).2.1
  rw [h]
  simp [seg, two_pointer_merge]

/-! ### Loops that fill a buffer -/

theorem getD_set_self {α : Type} (l : List α) (i : Nat) (v d : α) (h : i < l.length) :
    (l.set i v).getD i d = v := by
  simp [List.getD_eq_getElem?_getD, List.getElem?_set, h]

theorem getD_set_other {α : Type} (l : List α) (i j : Nat) (v d : α) (h : i ≠ j) :
    (l.set i v).getD j d = l.getD j d := by
  simp [List.getD_eq_getElem?_getD, List.getElem?_set, h]

theorem for_loop_eq_foldl {σ : Type} (n : Nat) (body : Nat → σ → σ) (s : σ) :
    for_loop n body s = (List.range n).foldl (fun s i => body i s) s := by
  induction n with
  | zero => rfl
  | succ n ih => rw [for_loop, List.range_succ, List.foldl_append, ← ih]; rfl

theorem for_loop_set_row {α : Type} (d : α) (g : Nat → α) (base : Nat) :
    ∀ (n : Nat) (l : List α), base + n ≤ l.length →
      (for_loop n (fun j l => l.set (base + j) (g j)) l).length = l.length ∧
      (∀ j, j < n → (for_loop n (fun j l => l.set (base + j) (g j)) l).getD (base + j) d = g j) ∧
      (∀ idx, idx < base ∨ base + n ≤ idx →
        (for_loop n (fun j l => l.set (base + j) (g j)) l).getD idx d = l.getD idx d) := by
  intro n
  induction n with
  | zero =>
    intro l _
    exact ⟨rfl, fun j hj => absurd hj (Nat.not_lt_zero j), fun _ _ => rfl⟩
  | succ n ih =>
    intro l hl
    obtain ⟨h1, h2, h3⟩ := ih l (by omega)
    refine ⟨?_, ?_, ?_⟩
    · rw [for_loop, List.length_set, h1]
    · intro j hj
      rw [for_loop]
      by_cases hjn : j = n
      · subst hjn
        exact getD_set_self _ _ _ _ (by rw [h1]; omega)
      · rw [getD_set_other _ _ _ _ _ (by omega)]
        exact h2 j (by omega)
    · intro idx hidx
      rw [for_loop, getD_set_other _ _ _ _ _ (by omega)]
      exact h3 idx (by omega)

theorem for_loop_set_grid {α : Type} (d : α) (g : Nat → Nat → α) (w : Nat) :
    ∀ (h : Nat) (l : List α), h * w ≤ l.length →
      (for_loop h (fun i l => for_loop w (fun j l => l.set (i * w + j) (g i j)) l) l).length
        = l.length ∧
      (∀ i j, i < h → j < w →
        (for_loop h (fun i l => for_loop w (fun j l => l.set (i * w + j) (g i j)) l) l).getD
          (i * w + j) d = g i j) ∧
      (∀ idx, h * w ≤ idx →
        (for_loop h (fun i l => for_loop w (fun j l => l.set (i * w + j) (g i j)) l) l).getD
          idx d = l.getD idx d) := by
  intro h
  induction h with
  | zero =>
    intro l _
    exact ⟨rfl, fun i j hi _ => absurd hi (Nat.not_lt_zero i), fun _ _ => rfl⟩
  | succ h ih =>
    intro l hl
    have hmul : (h + 1) * w = h * w + w := Nat.succ_mul h w
    obtain ⟨h1, h2, h3⟩ := ih l (by omega)
    obtain ⟨r1, r2, r3⟩ := for_loop_set_row d (g h) (h * w) w
      (for_loop h (fun i l => for_loop w (fun j l => l.set (i * w + j) (g i j)) l) l)
      (by rw [h1]; omega)
    refine ⟨?_, ?_, ?_⟩
    · rw [for_loop]; exact r1.trans h1
    · intro i j hi hj
      rw [for_loop]
      by_cases hih : i = h
      · subst hih
        exact r2 j hj
      · have hlt : i * w + j < h * w := by
          have : (i + 1) * w ≤ h * w := Nat.mul_le_mul_right w (by omega)
          rw [Nat.succ_mul] at this
          omega
        exact (r3 (i * w + j) (Or.inl hlt)).trans (h2 i j (by omega) hj)
    · intro idx hidx
      rw [for_loop]
      exact (r3 idx (Or.inr (by omega))).trans (h3 idx (by omega))

theorem grid_index (w idx h : Nat) (hw : 0 < w) (hidx : idx < h * w) :
    idx / w < h ∧ idx % w < w ∧ idx / w * w + idx % w = idx := by
  refine ⟨?_, Nat.mod_lt _ hw, ?_⟩
  · exact (Nat.div_lt_iff_lt_mul hw).mpr hidx
  · rw [Nat.mul_comm]; exact Nat.div_add_mod idx w

/-! ### The binary64 arithmetic -/

theorem bit_length_zero : bit_length 0 = 0 := rfl

theorem bit_length_aux_zero (fuel : Nat) : bit_length_aux fuel 0 = 0 := by
  cases fuel <;> simp [bit_length_aux]

theorem bit_length_aux_bounds : ∀ (fuel n : Nat), n ≤ fuel → 0 < n →
    2 ^ (bit_length_aux fuel n - 1) ≤ n ∧ n < 2 ^ bit_length_aux fuel n ∧
      0 < bit_length_aux fuel n := by
  intro fuel
  induction fuel with
  | zero => intro n h1 h2; omega
  | succ f ih =>
    intro n h1 h2
    rw [bit_length_aux, if_neg (by omega)]
    by_cases h : n / 2 = 0
    · rw [h, bit_length_aux_zero]
      have : n = 1 := by omega
      subst this
      simp
    · obtain ⟨a, b, c⟩ := ih (n / 2) (by omega) (by omega)
      refine ⟨?_, ?_, by omega⟩
      · have e : bit_length_aux f (n / 2) + 1 - 1 = (bit_length_aux f (n / 2) - 1) + 1 := by
          omega
        rw [e, pow_succ]
        omega
      · rw [pow_succ]
        omega

theorem bit_length_bounds (n : Nat) (h : 0 < n) :
    2 ^ (bit_length n - 1) ≤ n ∧ n < 2 ^ bit_length n ∧ 0 < bit_length n :=
  bit_length_aux_bounds n n (le_refl n) h

theorem bit_length_unique (n L : Nat) (h1 : 2 ^ (L - 1) ≤ n) (h2 : n < 2 ^ L) (hL : 0 < L) :
    bit_length n = L := by
  have hn : 0 < n := lt_of_lt_of_le (by positivity) h1
  obtain ⟨a, b, c⟩ := bit_length_bounds n hn
  have k1 : bit_length n - 1 < L :=
    (Nat.pow_lt_pow_iff_right (by norm_num : 1 < 2)).mp (lt_of_le_of_lt a h2)
  have k2 : L - 1 < bit_length n :=
    (Nat.pow_lt_pow_iff_right (by norm_num : 1 < 2)).mp (lt_of_le_of_lt h1 b)
  omega

theorem bit_length_double (n : Nat) (h : 0 < n) : bit_length (2 * n) = bit_length n + 1 := by
  obtain ⟨a, b, c⟩ := bit_length_bounds n h
  refine bit_length_unique (2 * n) (bit_length n + 1) ?_ ?_ (by omega)
  · have e : bit_length n + 1 - 1 = (bit_length n - 1) + 1 := by omega
    rw [e, pow_succ]
    omega
  · rw [pow_succ]
    omega

theorem normal_double (m e : Int) : Dyadic.normal (2 * m) e = Dyadic.normal m (e + 1) := by
  unfold Dyadic.normal
  by_cases h : m = 0
  · subst h
    rfl
  · have ha : 0 < m.natAbs := Int.natAbs_pos.mpr h
    have hn : (2 * m).natAbs = 2 * m.natAbs := by
      rw [Int.natAbs_mul]; rfl
    rw [if_neg h, if_neg (by omega), hn, bit_length_double _ ha, strip_aux,
      if_pos (by omega)]
    congr 1
    omega

theorem toRat_strip_aux : ∀ (fuel : Nat) (m e : Int),
    (strip_aux fuel m e).toRat = (m : ℚ) * (2 : ℚ) ^ e := by
  intro fuel
  induction fuel with
  | zero => intro m e; rfl
  | succ f ih =>
    intro m e
    rw [strip_aux]
    by_cases h : m % 2 = 0
    · rw [if_pos h, ih]
      obtain ⟨t, ht⟩ : ∃ t, m = 2 * t := ⟨m / 2, by omega⟩
      subst ht
      have : 2 * t / 2 = t := by omega
      rw [this, zpow_add₀ (by norm_num : (2 : ℚ) ≠ 0)]
      push_cast
      ring
    · rw [if_neg h]
      rfl

theorem toRat_normal (m e : Int) : (Dyadic.normal m e).toRat = (m : ℚ) * (2 : ℚ) ^ e := by
  unfold Dyadic.normal
  by_cases h : m = 0
  · subst h
    simp [Dyadic.toRat]
  · rw [if_neg h, toRat_strip_aux]

theorem signed_natAbs (m : Int) : (if m < 0 then -(m.natAbs : Int) else (m.natAbs : Int)) = m := by
  split <;> omega

theorem round53_double (m e : Int) : round53 (2 * m) e = round53 m (e + 1) := by
  by_cases h0 : m = 0
  · subst h0
    rfl
  have ha : 0 < m.natAbs := Int.natAbs_pos.mpr h0
  have hn : (2 * m).natAbs = 2 * m.natAbs := by
    rw [Int.natAbs_mul]; rfl
  obtain ⟨b1, b2, b3⟩ := bit_length_bounds m.natAbs ha
  unfold round53
  simp only
  rw [hn, bit_length_double _ ha]
  by_cases c1 : bit_length m.natAbs + 1 - 53 = 0
  · rw [if_pos c1, if_pos (by omega), normal_double]
  · rw [if_neg c1]
    by_cases c2 : bit_length m.natAbs - 53 = 0
    · rw [if_pos c2]
      have hk : bit_length m.natAbs + 1 - 53 = 1 := by omega
      rw [hk]
      have hq : 2 * m.natAbs / 2 ^ 1 = m.natAbs := by omega
      have hr : 2 * m.natAbs % 2 ^ 1 = 0 := by omega
      rw [hq, hr]
      simp only [Nat.sub_self, pow_zero, Nat.lt_one_iff, if_true]
      have hs : (if 2 * m < 0 then -(m.natAbs : Int) else (m.natAbs : Int)) = m := by
        split <;> omega
      rw [hs]
      rfl
    · rw [if_neg c2]
      have hk : bit_length m.natAbs + 1 - 53 = (bit_length m.natAbs - 53) + 1 := by omega
      rw [hk]
      generalize bit_length m.natAbs - 53 = k at c2 ⊢
      obtain ⟨j, rfl⟩ : ∃ j, k = j + 1 := ⟨k - 1, by omega⟩
      have hq : 2 * m.natAbs / 2 ^ (j + 1 + 1) = m.natAbs / 2 ^ (j + 1) := by
        rw [pow_succ 2 (j + 1), Nat.mul_comm (2 ^ (j + 1)) 2]
        exact Nat.mul_div_mul_left _ _ (by norm_num)
      have hr : 2 * m.natAbs % 2 ^ (j + 1 + 1) = 2 * (m.natAbs % 2 ^ (j + 1)) := by
        rw [pow_succ 2 (j + 1), Nat.mul_comm (2 ^ (j + 1)) 2]
        exact Nat.mul_mod_mul_left _ _ _
      have hh : 2 ^ (j + 1 + 1 - 1) = 2 * 2 ^ (j + 1 - 1) := by
        have : j + 1 + 1 - 1 = (j + 1 - 1) + 1 := by omega
        rw [this, pow_succ]
        omega
      rw [hq, hr, hh]
      have e1 : (2 * (m.natAbs % 2 ^ (j + 1)) < 2 * 2 ^ (j + 1 - 1)) ↔
          (m.natAbs % 2 ^ (j + 1) < 2 ^ (j + 1 - 1)) := by omega
      have e2 : (2 * 2 ^ (j + 1 - 1) < 2 * (m.natAbs % 2 ^ (j + 1))) ↔
          (2 ^ (j + 1 - 1) < m.natAbs % 2 ^ (j + 1)) := by omega
      have e3 : (2 * m < 0) ↔ (m < 0) := by omega
      simp only [e1, e2, e3]
      congr 1
      push_cast
      ring

theorem round53_shift (m e : Int) (j : Nat) :
    round53 (m * 2 ^ j) e = round53 m (e + j) := by
  induction j generalizing e with
  | zero => simp
  | succ j ih =>
    have : m * 2 ^ (j + 1) = 2 * (m * 2 ^ j) := by ring
    rw [this, round53_double, ih]
    congr 1
    push_cast
    ring

theorem round53_congr (m e m2 e2 : Int)
    (h : (m : ℚ) * (2 : ℚ) ^ e = (m2 : ℚ) * (2 : ℚ) ^ e2) : round53 m e = round53 m2 e2 := by
  have key : ∀ (m e m2 e2 : Int), e ≤ e2 →
      (m : ℚ) * (2 : ℚ) ^ e = (m2 : ℚ) * (2 : ℚ) ^ e2 → round53 m e = round53 m2 e2 := by
    intro m e m2 e2 hle h
    obtain ⟨j, hj⟩ : ∃ j : Nat, e2 = e + j := ⟨(e2 - e).toNat, by omega⟩
    subst hj
    have hm : m = m2 * 2 ^ j := by
      have h2 : (m : ℚ) = (m2 : ℚ) * (2 : ℚ) ^ (j : ℕ) := by
        rw [zpow_add₀ (by norm_num : (2 : ℚ) ≠ 0), zpow_natCast] at h
        have hp : (2 : ℚ) ^ e ≠ 0 := zpow_ne_zero _ (by norm_num)
        have h3 : (m : ℚ) * (2 : ℚ) ^ e = ((m2 : ℚ) * (2 : ℚ) ^ (j : ℕ)) * (2 : ℚ) ^ e := by
          rw [h]; ring
        exact mul_right_cancel₀ hp h3
      exact_mod_cast h2
    rw [hm, round53_shift]
  rcases le_total e e2 with hle | hle
  · exact key m e m2 e2 hle h
  · exact (key m2 e2 m e hle h.symm).symm

theorem b64_add_value (x y : Dyadic) :
    ((x.m * 2 ^ (x.e - min x.e y.e).toNat + y.m * 2 ^ (y.e - min x.e y.e).toNat : Int) : ℚ) *
      (2 : ℚ) ^ (min x.e y.e) = x.toRat + y.toRat := by
  have h2 : (2 : ℚ) ≠ 0 := by norm_num
  have hx : ((x.e - min x.e y.e).toNat : Int) = x.e - min x.e y.e :=
    Int.toNat_of_nonneg (by have := min_le_left x.e y.e; omega)
  have hy : ((y.e - min x.e y.e).toNat : Int) = y.e - min x.e y.e :=
    Int.toNat_of_nonneg (by have := min_le_right x.e y.e; omega)
  have ex : (2 : ℚ) ^ (x.e - min x.e y.e).toNat * (2 : ℚ) ^ (min x.e y.e) = (2 : ℚ) ^ x.e := by
    rw [← zpow_natCast, hx, ← zpow_add₀ h2]
    congr 1
    ring
  have ey : (2 : ℚ) ^ (y.e - min x.e y.e).toNat * (2 : ℚ) ^ (min x.e y.e) = (2 : ℚ) ^ y.e := by
    rw [← zpow_natCast, hy, ← zpow_add₀ h2]
    congr 1
    ring
  unfold Dyadic.toRat
  push_cast
  rw [add_mul, mul_assoc, mul_assoc, ex, ey]

theorem b64_add_eq (x y : Dyadic) (n e : Int)
    (h : x.toRat + y.toRat = (n : ℚ) * (2 : ℚ) ^ e) : b64_add x y = round53 n e := by
  unfold b64_add
  simp only
  exact round53_congr _ _ _ _ ((b64_add_value x y).trans h)

theorem b64_le_iff (x y : Dyadic) : b64_le x y = true ↔ x.toRat ≤ y.toRat := by
  have h2 : (2 : ℚ) ≠ 0 := by norm_num
  have hx : ((x.e - min x.e y.e).toNat : Int) = x.e - min x.e y.e :=
    Int.toNat_of_nonneg (by have := min_le_left x.e y.e; omega)
  have hy : ((y.e - min x.e y.e).toNat : Int) = y.e - min x.e y.e :=
    Int.toNat_of_nonneg (by have := min_le_right x.e y.e; omega)
  have ex : (2 : ℚ) ^ (x.e - min x.e y.e).toNat * (2 : ℚ) ^ (min x.e y.e) = (2 : ℚ) ^ x.e := by
    rw [← zpow_natCast, hx, ← zpow_add₀ h2]
    congr 1
    ring
  have ey : (2 : ℚ) ^ (y.e - min x.e y.e).toNat * (2 : ℚ) ^ (min x.e y.e) = (2 : ℚ) ^ y.e := by
    rw [← zpow_natCast, hy, ← zpow_add₀ h2]
    congr 1
    ring
  have hp : (0 : ℚ) < (2 : ℚ) ^ (min x.e y.e) := zpow_pos (by norm_num) _
  unfold b64_le
  simp only [decide_eq_true_eq]
  unfold Dyadic.toRat
  rw [← ex, ← ey, ← mul_assoc, ← mul_assoc, mul_le_mul_right hp]
  exact_mod_cast Iff.rfl

theorem b64_add_zero_left (c : Dyadic) (h : is_binary64 c) : b64_add ⟨0, 0⟩ c = c := by
  have hv : (⟨0, 0⟩ : Dyadic).toRat + c.toRat = (c.m : ℚ) * (2 : ℚ) ^ c.e := by
    simp [Dyadic.toRat]
  rw [b64_add_eq _ _ _ _ hv]
  exact h

theorem toRat_round53_small (n e : Int) (h : bit_length n.natAbs ≤ 53) :
    (round53 n e).toRat = (n : ℚ) * (2 : ℚ) ^ e := by
  unfold round53
  simp only
  rw [if_pos (by omega), toRat_normal]

theorem toRat_round53_nonneg (M e : Int) (hM : 0 ≤ M) : 0 ≤ (round53 M e).toRat := by
  unfold round53
  simp only
  split
  · rw [toRat_normal]
    have : (0 : ℚ) ≤ (M : ℚ) := by exact_mod_cast hM
    positivity
  · rw [if_neg (by omega), toRat_normal]
    positivity

theorem toRat_round53_large (M e : Int) (h : (100 : ℚ) ≤ (M : ℚ) * (2 : ℚ) ^ e) :
    (4 : ℚ) < (round53 M e).toRat := by
  have hp : (0 : ℚ) < (2 : ℚ) ^ e := zpow_pos (by norm_num) _
  have hM : 0 < M := by
    by_contra hc
    have : (M : ℚ) ≤ 0 := by exact_mod_cast (not_lt.mp hc)
    nlinarith
  have ha : 0 < M.natAbs := Int.natAbs_pos.mpr (by omega)
  have hMa : (M : ℚ) = (M.natAbs : ℚ) := by
    rw [← Int.cast_natCast, Int.natAbs_of_nonneg hM.le]
  obtain ⟨b1, b2, b3⟩ := bit_length_bounds M.natAbs ha
  unfold round53
  simp only
  by_cases hk : bit_length M.natAbs - 53 = 0
  · rw [if_pos hk, toRat_normal]
    linarith
  · rw [if_neg hk, if_neg (by omega), toRat_normal]
    obtain ⟨k, hkk⟩ : ∃ k, bit_length M.natAbs = 53 + k := ⟨bit_length M.natAbs - 53, by omega⟩
    have hk2 : bit_length M.natAbs - 53 = k := by omega
    rw [hk2]
    rw [hkk] at b1 b2
    have hq : 2 ^ 52 ≤ M.natAbs / 2 ^ k := by
      rw [Nat.le_div_iff_mul_le (by positivity), ← pow_add]
      have : 53 + k - 1 = 52 + k := by omega
      rw [this] at b1
      exact b1
    set q := M.natAbs / 2 ^ k with hqdef
    set r := M.natAbs % 2 ^ k with hrdef
    have hq1 : q ≤ (if r < 2 ^ (k - 1) then q else if 2 ^ (k - 1) < r then q + 1
        else if q % 2 = 0 then q else q + 1) := by
      split
      · exact le_refl _
      · split
        · omega
        · split <;> omega
    set q1 := (if r < 2 ^ (k - 1) then q else if 2 ^ (k - 1) < r then q + 1
        else if q % 2 = 0 then q else q + 1) with hq1def
    have hq1' : ((2 : ℚ) ^ (52 : ℕ)) ≤ ((q1 : Int) : ℚ) := by
      have : 2 ^ 52 ≤ q1 := le_trans hq hq1
      exact_mod_cast this
    have hlt : (M : ℚ) < (2 : ℚ) ^ ((53 + k : ℕ)) := by
      rw [hMa]
      exact_mod_cast b2
    have hbig : (100 : ℚ) < (2 : ℚ) ^ ((53 + k : ℕ)) * (2 : ℚ) ^ e := by
      calc (100 : ℚ) ≤ (M : ℚ) * (2 : ℚ) ^ e := h
        _ < (2 : ℚ) ^ ((53 + k : ℕ)) * (2 : ℚ) ^ e := by
          exact mul_lt_mul_of_pos_right hlt hp
    have hexp : (7 : Int) ≤ ((53 + k : ℕ) : Int) + e := by
      by_contra hc
      have hle : ((53 + k : ℕ) : Int) + e ≤ 6 := by omega
      have h2 : (2 : ℚ) ^ (((53 + k : ℕ) : Int) + e) ≤ (2 : ℚ) ^ (6 : Int) :=
        zpow_le_zpow_right₀ (by norm_num) hle
      rw [zpow_add₀ (by norm_num : (2 : ℚ) ≠ 0), zpow_natCast] at h2
      norm_num at h2
      linarith
    have h64 : (2 : ℚ) ^ (6 : Int) ≤ (2 : ℚ) ^ ((52 : Int) + (e + (k : Int))) :=
      zpow_le_zpow_right₀ (by norm_num) (by push_cast at hexp; omega)
    rw [zpow_add₀ (by norm_num : (2 : ℚ) ≠ 0)] at h64
    have hpe : (0 : ℚ) < (2 : ℚ) ^ (e + (k : Int)) := zpow_pos (by norm_num) _
    have h3 : (2 : ℚ) ^ (52 : Int) * (2 : ℚ) ^ (e + (k : Int)) ≤
        ((q1 : Int) : ℚ) * (2 : ℚ) ^ (e + (k : Int)) := by
      apply mul_le_mul_of_nonneg_right _ hpe.le
      have : (2 : ℚ) ^ (52 : Int) = (2 : ℚ) ^ (52 : ℕ) := by norm_num
      rw [this]
      exact hq1'
    norm_num at h64
    linarith

theorem bit_length_le (n L : Nat) (h : n < 2 ^ L) : bit_length n ≤ L := by
  rcases Nat.eq_zero_or_pos n with h0 | hpos
  · subst h0
    exact Nat.zero_le _
  · obtain ⟨a, _, _⟩ := bit_length_bounds n hpos
    have k1 : bit_length n - 1 < L :=
      (Nat.pow_lt_pow_iff_right (by norm_num : 1 < 2)).mp (lt_of_le_of_lt a h)
    omega

set_option maxRecDepth 20000 in
theorem binary64_start_laws : MandelbrotStartLaws binary64 is_binary64 := by
  have hz : b64_dec 0 (-1) = ⟨0, 0⟩ := by decide
  have h4 : b64_dec 40 (-1) = ⟨1, 2⟩ := by decide
  refine ⟨?_, ?_, ?_, ?_, ?_, ?_⟩
  · decide
  · intro c hc
    have h0 : b64_sub (b64_mul (b64_dec 0 (-1)) (b64_dec 0 (-1)))
        (b64_mul (b64_dec 0 (-1)) (b64_dec 0 (-1))) = ⟨0, 0⟩ := by decide
    show b64_add (b64_sub (b64_mul (b64_dec 0 (-1)) (b64_dec 0 (-1)))
        (b64_mul (b64_dec 0 (-1)) (b64_dec 0 (-1)))) c = c
    rw [h0]
    exact b64_add_zero_left c hc
  · intro c hc
    have h0 : b64_mul (b64_mul (b64_dec 20 (-1)) (b64_dec 0 (-1))) (b64_dec 0 (-1)) = ⟨0, 0⟩ := by
      decide
    show b64_add (b64_mul (b64_mul (b64_dec 20 (-1)) (b64_dec 0 (-1))) (b64_dec 0 (-1))) c = c
    rw [h0]
    exact b64_add_zero_left c hc
  · show is_binary64 (b64_dec 100 (-1))
    decide
  · intro y
    show b64_le (b64_dec 0 (-1)) (b64_mul y y) = true
    rw [b64_le_iff, hz]
    have h := toRat_round53_nonneg (y.m * y.m) (y.e + y.e) (mul_self_nonneg _)
    unfold b64_mul
    simpa [Dyadic.toRat] using h
  · intro s hs
    change b64_le (b64_dec 0 (-1)) s = true at hs
    have hm : b64_mul (b64_dec 100 (-1)) (b64_dec 100 (-1)) = ⟨25, 2⟩ := by decide
    show b64_le (b64_add (b64_mul (b64_dec 100 (-1)) (b64_dec 100 (-1))) s) (b64_dec 40 (-1))
      = false
    rw [hm, h4]
    have hs2 : (0 : ℚ) ≤ s.toRat := by
      have h := (b64_le_iff _ _).mp hs
      rw [hz] at h
      simpa [Dyadic.toRat] using h
    have hbig : (4 : ℚ) < (b64_add ⟨25, 2⟩ s).toRat := by
      unfold b64_add
      simp only
      apply toRat_round53_large
      rw [b64_add_value ⟨25, 2⟩ s]
      have : (⟨25, 2⟩ : Dyadic).toRat = 100 := by norm_num [Dyadic.toRat]
      rw [this]
      linarith
    cases hc : b64_le (b64_add ⟨25, 2⟩ s) ⟨1, 2⟩ with
    | false => rfl
    | true =>
      have h := (b64_le_iff _ _).mp hc
      have : (⟨1, 2⟩ : Dyadic).toRat = 4 := by norm_num [Dyadic.toRat]
      rw [this] at h
      linarith

set_option maxRecDepth 20000 in
theorem binary64_small_integer_laws : SmallIntegerLaws binary64 := by
  refine ⟨by decide, ?_⟩
  intro k hk
  have hm : b64_mul (b64_dec 10 (-1)) (b64_dec 20 (-1)) = ⟨1, 1⟩ := by decide
  show b64_add (b64_of_int (2 * (k : Int))) (b64_mul (b64_dec 10 (-1)) (b64_dec 20 (-1))) =
    b64_of_int (2 * ((k : Int) + 1))
  rw [hm]
  unfold b64_of_int
  apply b64_add_eq
  have hb : bit_length (2 * (k : Int)).natAbs ≤ 53 := by
    apply bit_length_le
    have : (2 * (k : Int)).natAbs = 2 * k := by omega
    rw [this]
    omega
  rw [toRat_round53_small _ _ hb]
  norm_num [Dyadic.toRat]
  ring

theorem exact_ops_small_integer_laws (F : Type) [LinearOrderedField F] (sqrt : F → F) :
    SmallIntegerLaws (exact_ops F sqrt) := by
  refine ⟨?_, ?_⟩
  · simp [exact_ops]
  · intro k _
    simp only [exact_ops]
    push_cast
    norm_num
    ring

/-! ### Literals -/

theorem zero_literal {F : Type} [LinearOrderedField F] : (0.0 : F) = 0 := by norm_num

/-! ### Mandelbrot -/

theorem mandelbrot_while_origin {F : Type} [LinearOrderedField F] :
    ∀ (n iter : Nat), MAX_ITER - iter = n → iter ≤ MAX_ITER →
      mandelbrot_while (0 : F) 0 0 0 iter = MAX_ITER := by
  intro n
  induction n with
  | zero =>
    intro iter hn hle
    rw [mandelbrot_while, if_neg (by omega)]
    omega
  | succ n ih =>
    intro iter hn hle
    rw [mandelbrot_while, if_pos ⟨by norm_num, by omega⟩]
    have h1 : (0 : F) * 0 - 0 * 0 + 0 = 0 := by norm_num
    have h2 : (2.0 : F) * 0 * 0 + 0 = 0 := by norm_num
    simp only [h1, h2]
    exact ih (iter + 1) (by omega) (by omega)

/-- C6: the escape count of the origin reaches the cap:
`mandelbrot_iterations(0, 0) = 1000`, the value of `MAX_ITER`. -/
theorem mandelbrot_iterations_origin {F : Type} [LinearOrderedField F] :
    mandelbrot_iterations (0 : F) 0 = 1000 ∧ MAX_ITER = 1000 := by
  refine ⟨?_, rfl⟩
  unfold mandelbrot_iterations
  rw [zero_literal]
  exact mandelbrot_while_origin MAX_ITER 0 rfl (Nat.zero_le _)

theorem exact_ops_start_laws (F : Type) [LinearOrderedField F] (sqrt : F → F) :
    MandelbrotStartLaws (exact_ops F sqrt) (fun _ => True) := by
  refine ⟨?_, ?_, ?_, trivial, ?_, ?_⟩
  · simp [exact_ops]
  · intro c _; simp [exact_ops]
  · intro c _; simp [exact_ops]
  · intro y; simp [exact_ops, mul_self_nonneg]
  · intro s h
    simp only [exact_ops, decide_eq_true_eq, decide_eq_false_iff_not, not_le] at h ⊢
    have h0 : (0 : F) ≤ s := by simpa using h
    norm_num
    linarith

theorem mandelbrot_double_first_round {D : Type} (O : DoubleOps D) (is_double : D → Prop)
    (laws : MandelbrotStartLaws O is_double) (cx cy : D) (hx : is_double cx)
    (hy : is_double cy) :
    mandelbrot_iterations_double O cx cy = mandelbrot_while_double O cx cy cx cy 1 := by
  unfold mandelbrot_iterations_double
  rw [mandelbrot_while_double, if_pos ⟨laws.start_inside, by decide⟩]
  simp only [laws.first_x cx hx, laws.first_y cy hy]

theorem mandelbrot_double_test_fails {D : Type} (O : DoubleOps D) (is_double : D → Prop)
    (laws : MandelbrotStartLaws O is_double) (cx cy : D) (hx : is_double cx)
    (hy : is_double cy)
    (h : O.le (O.add (O.mul cx cx) (O.mul cy cy)) (O.dec 40 (-1)) = false) :
    mandelbrot_iterations_double O cx cy = 1 := by
  rw [mandelbrot_double_first_round O is_double laws cx cy hx hy, mandelbrot_while_double,
    if_neg]
  rintro ⟨hc, _⟩
  rw [h] at hc
  exact Bool.false_ne_true hc

/-- C7 (amended): a point far outside the window diverges within 1-2
iterations.  In every `double` arithmetic with the facts of
`MandelbrotStartLaws`, binary64 among them: for every `double` `cy`,
`mandelbrot_iterations(10, cy)` is 1 or 2, and for every point for which the
sum `cx*cx + cy*cy`, as the loop test computes it in `double`, is not
`<= 4.0`, the returned count is at most 2 (it is 1). -/
theorem mandelbrot_iterations_far_outside {D : Type} (O : DoubleOps D)
    (is_double : D → Prop) (laws : MandelbrotStartLaws O is_double) :
    (∀ cy : D, is_double cy →
        mandelbrot_iterations_double O (O.dec 100 (-1)) cy = 1 ∨
          mandelbrot_iterations_double O (O.dec 100 (-1)) cy = 2) ∧
      (∀ cx cy : D, is_double cx → is_double cy →
        O.le (O.add (O.mul cx cx) (O.mul cy cy)) (O.dec 40 (-1)) = false →
        mandelbrot_iterations_double O cx cy ≤ 2 ∧ mandelbrot_iterations_double O cx cy = 1) := by
  refine ⟨?_, ?_⟩
  · intro cy hy
    left
    exact mandelbrot_double_test_fails O is_double laws _ cy laws.ten_is_double hy
      (laws.far_sum _ (laws.square_nonneg cy))
  · intro cx cy hx hy h
    rw [mandelbrot_double_test_fails O is_double laws cx cy hx hy h]
    exact ⟨by decide, rfl⟩

set_option maxRecDepth 20000 in
theorem mandelbrot_iterations_far_outside_witness :
    (MandelbrotStartLaws binary64 is_binary64 ∧ is_binary64 ⟨1, -30⟩ ∧ is_binary64 ⟨3, 0⟩ ∧
        binary64.le (binary64.add (binary64.mul ⟨3, 0⟩ ⟨3, 0⟩) (binary64.mul ⟨1, -30⟩ ⟨1, -30⟩))
          (binary64.dec 40 (-1)) = false) ∧
      (mandelbrot_iterations_double binary64 (binary64.dec 100 (-1)) ⟨1, -30⟩ = 1 ∨
        mandelbrot_iterations_double binary64 (binary64.dec 100 (-1)) ⟨1, -30⟩ = 2) ∧
      (mandelbrot_iterations_double binary64 ⟨3, 0⟩ ⟨1, -30⟩ ≤ 2 ∧
        mandelbrot_iterations_double binary64 ⟨3, 0⟩ ⟨1, -30⟩ = 1) :=
  ⟨⟨binary64_start_laws, by decide, by decide, by decide⟩,
    (mandelbrot_iterations_far_outside binary64 is_binary64 binary64_start_laws).1 ⟨1, -30⟩
      (by decide),
    (mandelbrot_iterations_far_outside binary64 is_binary64 binary64_start_laws).2 ⟨3, 0⟩
      ⟨1, -30⟩ (by decide) (by decide) (by decide)⟩

set_option maxRecDepth 20000 in
/-- C7 as stated fails on `double`: at `cx = -2`, `cy = 2^-30` the exact value
of `cx^2 + cy^2` is `4 + 2^-60 > 4`, but in binary64 the sum rounds to `4.0`,
the loop test passes, and `mandelbrot_iterations` returns 4, which is more
than 2. -/
theorem mandelbrot_iterations_rounding_counterexample :
    ((⟨-1, 1⟩ : Dyadic).toRat = -2 ∧ (⟨1, -30⟩ : Dyadic).toRat = 1 / 2 ^ 30 ∧
        (4 : ℚ) < (⟨-1, 1⟩ : Dyadic).toRat * (⟨-1, 1⟩ : Dyadic).toRat +
          (⟨1, -30⟩ : Dyadic).toRat * (⟨1, -30⟩ : Dyadic).toRat) ∧
      mandelbrot_iterations_double binary64 ⟨-1, 1⟩ ⟨1, -30⟩ = 4 ∧
      ¬ mandelbrot_iterations_double binary64 ⟨-1, 1⟩ ⟨1, -30⟩ ≤ 2 := by
  have h4 : mandelbrot_iterations_double binary64 ⟨-1, 1⟩ ⟨1, -30⟩ = 4 := by
    unfold mandelbrot_iterations_double
    rw [mandelbrot_while_double, if_pos (by decide)]
    simp only
    rw [mandelbrot_while_double, if_pos (by decide)]
    simp only
    rw [mandelbrot_while_double, if_pos (by decide)]
    simp only
    rw [mandelbrot_while_double, if_pos (by decide)]
    simp only
    rw [mandelbrot_while_double, if_neg (by decide)]
  refine ⟨⟨?_, ?_, ?_⟩, h4, ?_⟩
  · norm_num [Dyadic.toRat]
  · norm_num [Dyadic.toRat]
  · norm_num [Dyadic.toRat]
  · rw [h4]; decide

/-! ### N-body -/

theorem exact_ops_sign_laws (F : Type) [LinearOrderedField F] (sqrt : F → F) :
    SignSymmetryLaws (exact_ops F sqrt) := by
  refine ⟨?_, ?_, ?_, ?_, ?_, ?_⟩
  · intro a; simp [exact_ops]
  · intro a b; simp [exact_ops]
  · intro a; simp [exact_ops]
  · intro a b; simp [exact_ops]
  · intro a b; simp only [exact_ops]; ring
  · intro a; simp [exact_ops]

theorem for_loop_invariant {σ : Type} (P : σ → Prop) (body : Nat → σ → σ)
    (hbody : ∀ i s, P s → P (body i s)) (n : Nat) (s : σ) (hs : P s) :
    P (for_loop n body s) := by
  induction n with
  | zero => exact hs
  | succ n ih => rw [for_loop]; exact hbody n _ ih

theorem getD_set_preserves {α β : Type} (f : α → β) (l : List α) (i j : Nat) (v d : α)
    (hv : f v = f (l.getD i d)) : f ((l.set i v).getD j d) = f (l.getD j d) := by
  by_cases hij : i = j
  · subst hij
    by_cases hi : i < l.length
    · rw [getD_set_self l i v d hi, hv]
    · rw [List.set_eq_of_length_le (by omega)]
  · rw [getD_set_other l i j v d hij]

/-- C10: `compute_forces` changes only velocities: for `N >= 1` and an array
of `N` bodies, after `compute_forces(bodies, N, threads)` the array still has
`N` bodies and the fields `x`, `y`, `z` and `mass` of each body have the values
they had before the call. -/
theorem compute_forces_keeps_positions {F : Type} [LinearOrderedField F] (sqrt : F → F)
    (bodies : List (Body F)) (N : Nat) (threads : Int) (_hN : 1 ≤ N)
    (hlen : bodies.length = N) :
    (compute_forces sqrt bodies N threads).length = N ∧
      ∀ i, i < N →
        ((compute_forces sqrt bodies N threads).getD i Body.zero).x
            = (bodies.getD i Body.zero).x ∧
          ((compute_forces sqrt bodies N threads).getD i Body.zero).y
            = (bodies.getD i Body.zero).y ∧
          ((compute_forces sqrt bodies N threads).getD i Body.zero).z
            = (bodies.getD i Body.zero).z ∧
          ((compute_forces sqrt bodies N threads).getD i Body.zero).mass
            = (bodies.getD i Body.zero).mass := by
  have key : (compute_forces sqrt bodies N threads).length = bodies.length ∧
      ∀ j, (fun b : Body F => (b.x, b.y, b.z, b.mass))
          ((compute_forces sqrt bodies N threads).getD j Body.zero) =
        (fun b : Body F => (b.x, b.y, b.z, b.mass)) (bodies.getD j Body.zero) := by
    unfold compute_forces
    refine for_loop_invariant
      (fun s : List (Body F) => s.length = bodies.length ∧
        ∀ j, (fun b : Body F => (b.x, b.y, b.z, b.mass)) (s.getD j Body.zero) =
          (fun b : Body F => (b.x, b.y, b.z, b.mass)) (bodies.getD j Body.zero))
      _ ?_ N bodies ⟨rfl, fun _ => rfl⟩
    intro i s hs
    refine ⟨by simp only [List.length_set]; exact hs.1, fun j => ?_⟩
    rw [← hs.2 j]
    exact getD_set_preserves (fun b : Body F => (b.x, b.y, b.z, b.mass)) s i j _ Body.zero rfl
  refine ⟨key.1.trans hlen, fun i _ => ?_⟩
  have h := key.2 i
  simp only [Prod.mk.injEq] at h
  exact h

theorem compute_forces_keeps_positions_witness :
    (1 ≤ 2 ∧ [(⟨0, 1, 2, 3, 4, 5, 6⟩ : Body ℝ), ⟨7, 8, 9, 1, 2, 3, 4⟩].length = 2) ∧
      ((compute_forces Real.sqrt [⟨0, 1, 2, 3, 4, 5, 6⟩, ⟨7, 8, 9, 1, 2, 3, 4⟩] 2
          3).length = 2 ∧
        ∀ i, i < 2 →
          ((compute_forces Real.sqrt [⟨0, 1, 2, 3, 4, 5, 6⟩, ⟨7, 8, 9, 1, 2, 3, 4⟩] 2
              3).getD i Body.zero).x
              = (([⟨0, 1, 2, 3, 4, 5, 6⟩, ⟨7, 8, 9, 1, 2, 3, 4⟩] : List (Body ℝ)).getD i
                Body.zero).x ∧
            ((compute_forces Real.sqrt [⟨0, 1, 2, 3, 4, 5, 6⟩, ⟨7, 8, 9, 1, 2, 3, 4⟩] 2
              3).getD i Body.zero).y
              = (([⟨0, 1, 2, 3, 4, 5, 6⟩, ⟨7, 8, 9, 1, 2, 3, 4⟩] : List (Body ℝ)).getD i
                Body.zero).y ∧
            ((compute_forces Real.sqrt [⟨0, 1, 2, 3, 4, 5, 6⟩, ⟨7, 8, 9, 1, 2, 3, 4⟩] 2
              3).getD i Body.zero).z
              = (([⟨0, 1, 2, 3, 4, 5, 6⟩, ⟨7, 8, 9, 1, 2, 3, 4⟩] : List (Body ℝ)).getD i
                Body.zero).z ∧
            ((compute_forces Real.sqrt [⟨0, 1, 2, 3, 4, 5, 6⟩, ⟨7, 8, 9, 1, 2, 3, 4⟩] 2
              3).getD i Body.zero).mass
              = (([⟨0, 1, 2, 3, 4, 5, 6⟩, ⟨7, 8, 9, 1, 2, 3, 4⟩] : List (Body ℝ)).getD i
                Body.zero).mass) :=
  ⟨⟨by decide, rfl⟩, compute_forces_keeps_positions Real.sqrt _ 2 3 (by decide) rfl⟩

/-! ### Merge sort: write ranges and re-sorting -/

theorem getD_of_take_eq {l l2 : List Int} {a i : Nat} (h : l.take a = l2.take a) (hi : i < a) :
    l.getD i 0 = l2.getD i 0 := by
  have h2 := congrArg (fun t : List Int => t.getD i 0) h
  simpa [List.getD_eq_getElem?_getD, List.getElem?_take, hi] using h2

theorem getD_of_drop_eq {l l2 : List Int} {b i : Nat} (h : l.drop b = l2.drop b) (hi : b ≤ i) :
    l.getD i 0 = l2.getD i 0 := by
  have h2 := congrArg (fun t : List Int => t.getD (i - b) 0) h
  have hk : b + (i - b) = i := by omega
  simpa [List.getD_eq_getElem?_getD, List.getElem?_drop, hk] using h2

theorem merge_frame (arr temp : List Int) (left mid right : Nat) (h1 : left ≤ mid)
    (h2 : mid < right) (h3 : right < arr.length) (h4 : right < temp.length) :
    (merge arr temp left mid right).arr.take left = arr.take left ∧
      (merge arr temp left mid right).arr.drop (right + 1) = arr.drop (right + 1) ∧
      (merge arr temp left mid right).arr.length = arr.length ∧
      (merge arr temp left mid right).temp.take left = temp.take left ∧
      (merge arr temp left mid right).temp.drop (right + 1) = temp.drop (right + 1) ∧
      (merge arr temp left mid right).temp.length = temp.length := by
  obtain ⟨ha, ht⟩ := merge_arr_temp arr temp left mid right h1 h2 h3 h4
  have hmlen : (two_pointer_merge (seg arr left (mid + 1))
      (seg arr (mid + 1) (right + 1))).length = right + 1 - left := by
    rw [two_pointer_merge_length, length_seg _ (by omega), length_seg _ (by omega)]
    omega
  obtain ⟨fa1, fa2, fa3, _⟩ := replace_seg_frame arr _ (show left ≤ right + 1 by omega)
    (by omega) hmlen
  obtain ⟨ft1, ft2, ft3, _⟩ := replace_seg_frame temp _ (show left ≤ right + 1 by omega)
    (by omega) hmlen
  rw [← ha] at fa1 fa2 fa3
  rw [← ht] at ft1 ft2 ft3
  exact ⟨fa1, fa2, fa3, ft1, ft2, ft3⟩

/-- C17: disjoint write ranges.  For `0 <= left <= right < N` and buffers of
`N` cells, `merge_sort_parallel(arr, temp, left, right)` keeps the length of
`arr` and of `temp` and leaves every cell of `arr` and of `temp` at an index
outside `[left, right]` unchanged; so does `merge(arr, temp, left, mid, right)`
for every `left <= mid < right`. -/
theorem merge_sort_parallel_writes_only_range (arr temp : List Int) (N left right : Nat)
    (hlr : left ≤ right) (hr : right < N) (ha : arr.length = N) (ht : temp.length = N) :
    ((merge_sort_parallel arr temp left right).arr.length = N ∧
        (merge_sort_parallel arr temp left right).temp.length = N ∧
        ∀ i, i < left ∨ right < i →
          (merge_sort_parallel arr temp left right).arr.getD i 0 = arr.getD i 0 ∧
            (merge_sort_parallel arr temp left right).temp.getD i 0 = temp.getD i 0) ∧
      ∀ mid, left ≤ mid → mid < right →
        (merge arr temp left mid right).arr.length = N ∧
          (merge arr temp left mid right).temp.length = N ∧
          ∀ i, i < left ∨ right < i →
            (merge arr temp left mid right).arr.getD i 0 = arr.getD i 0 ∧
              (merge arr temp left mid right).temp.getD i 0 = temp.getD i 0 := by
  refine ⟨?_, ?_⟩
  · have s := merge_sort_parallel_spec (right - left) arr temp left right rfl hlr (by omega)
      (by omega)
    refine ⟨s.arr_length.trans ha, s.temp_length.trans ht, ?_⟩
    intro i hi
    rcases hi with hi | hi
    · exact ⟨getD_of_take_eq s.arr_take hi, getD_of_take_eq s.temp_take hi⟩
    · exact ⟨getD_of_drop_eq s.arr_drop (by omega), getD_of_drop_eq s.temp_drop (by omega)⟩
  · intro mid h1 h2
    obtain ⟨f1, f2, f3, f4, f5, f6⟩ := merge_frame arr temp left mid right h1 h2 (by omega)
      (by omega)
    refine ⟨f3.trans ha, f6.trans ht, ?_⟩
    intro i hi
    rcases hi with hi | hi
    · exact ⟨getD_of_take_eq f1 hi, getD_of_take_eq f4 hi⟩
    · exact ⟨getD_of_drop_eq f2 (by omega), getD_of_drop_eq f5 (by omega)⟩

theorem merge_sort_parallel_writes_only_range_witness :
    (1 ≤ 3 ∧ 3 < 5 ∧ [9, 4, 3, 2, 0].length = 5 ∧ [7, 7, 7, 7, 7].length = 5) ∧
      (∀ i, i < 1 ∨ 3 < i →
        (merge_sort_parallel [9, 4, 3, 2, 0] [7, 7, 7, 7, 7] 1 3).arr.getD i 0
            = ([9, 4, 3, 2, 0] : List Int).getD i 0 ∧
          (merge_sort_parallel [9, 4, 3, 2, 0] [7, 7, 7, 7, 7] 1 3).temp.getD i 0
            = ([7, 7, 7, 7, 7] : List Int).getD i 0) :=
  ⟨by decide, (merge_sort_parallel_writes_only_range [9, 4, 3, 2, 0] [7, 7, 7, 7, 7] 5 1 3
    (by decide) (by decide) rfl rfl).1.2.2⟩

theorem merge_sort_fixes_sorted (arr temp : List Int) (N : Nat) (threads : Int) (hN : 1 ≤ N)
    (ha : arr.length = N) (ht : temp.length = N) (hs : arr.Sorted (· ≤ ·)) :
    (merge_sort arr temp N threads).arr = arr := by
  have s := merge_sort_sortsRange arr temp N threads hN ha ht
  have hlen : (merge_sort arr temp N threads).arr.length = N := by rw [s.arr_length, ha]
  have hsorted := s.sorted
  have hperm := s.perm
  rw [seg_whole _ hlen hN] at hsorted
  rw [seg_whole _ hlen hN, seg_whole _ ha hN] at hperm
  exact List.eq_of_perm_of_sorted hperm hsorted hs

/-- C14: merge sort is idempotent under re-sort.  For an array `arr` of length
`N >= 1`, applying `merge_sort` a second time to the already sorted result
(with any scratch array of length `N` and any thread count) leaves the array
unchanged: `sort(sort(a)) = sort(a)`. -/
theorem merge_sort_idempotent (arr temp temp2 : List Int) (N : Nat) (threads threads2 : Int)
    (hN : 1 ≤ N) (ha : arr.length = N) (ht : temp.length = N) (ht2 : temp2.length = N) :
    (merge_sort (merge_sort arr temp N threads).arr temp2 N threads2).arr =
      (merge_sort arr temp N threads).arr := by
  have s := merge_sort_sortsRange arr temp N threads hN ha ht
  have hlen : (merge_sort arr temp N threads).arr.length = N := by rw [s.arr_length, ha]
  have hsorted := s.sorted
  rw [seg_whole _ hlen hN] at hsorted
  exact merge_sort_fixes_sorted _ temp2 N threads2 hN hlen ht2 hsorted

theorem merge_sort_idempotent_witness :
    (1 ≤ 4 ∧ [3, 1, 2, 1].length = 4 ∧ [7, 7, 7, 7].length = 4 ∧ [8, 8, 8, 8].length = 4) ∧
      (merge_sort (merge_sort [3, 1, 2, 1] [7, 7, 7, 7] 4 1).arr [8, 8, 8, 8] 4 2).arr =
        (merge_sort [3, 1, 2, 1] [7, 7, 7, 7] 4 1).arr :=
  ⟨by decide, merge_sort_idempotent [3, 1, 2, 1] [7, 7, 7, 7] [8, 8, 8, 8] 4 1 2 (by decide)
    rfl rfl rfl⟩

/-! ### Mandelbrot: bounds of the escape count -/

theorem mandelbrot_while_bounds {F : Type} [LinearOrderedField F] (cx cy : F) :
    ∀ (n : Nat) (x y : F) (iter : Nat), MAX_ITER - iter = n → iter ≤ MAX_ITER →
      iter ≤ mandelbrot_while cx cy x y iter ∧ mandelbrot_while cx cy x y iter ≤ MAX_ITER := by
  intro n
  induction n with
  | zero =>
    intro x y iter hn hle
    rw [mandelbrot_while, if_neg (by omega)]
    exact ⟨le_refl _, hle⟩
  | succ n ih =>
    intro x y iter hn hle
    obtain ⟨h1, h2⟩ := ih (x * x - y * y + cx) (2.0 * x * y + cy) (iter + 1) (by omega)
      (by omega)
    rw [mandelbrot_while]
    split
    · simp only
      exact ⟨by omega, h2⟩
    · exact ⟨le_refl _, hle⟩

/-- C19: the escape count is always within bounds.  For every point
`(cx, cy)`, `mandelbrot_iterations` (a total function: the loop ends after at
most `MAX_ITER` rounds) returns `iter` with `1 <= iter <= 1000`: the first
round always runs, since `z = 0` passes the test `x*x + y*y <= 4`, and the
count never exceeds `MAX_ITER`. -/
theorem mandelbrot_iterations_bounds {F : Type} [LinearOrderedField F] (cx cy : F) :
    1 ≤ mandelbrot_iterations cx cy ∧ mandelbrot_iterations cx cy ≤ 1000 ∧
      mandelbrot_iterations cx cy =
        mandelbrot_while cx cy (0 * 0 - 0 * 0 + cx) (2.0 * 0 * 0 + cy) 1 := by
  have hfirst : mandelbrot_iterations cx cy =
      mandelbrot_while cx cy (0 * 0 - 0 * 0 + cx) (2.0 * 0 * 0 + cy) 1 := by
    unfold mandelbrot_iterations
    rw [zero_literal, mandelbrot_while, if_pos ⟨by norm_num, by decide⟩]
  obtain ⟨h1, h2⟩ := mandelbrot_while_bounds cx cy (MAX_ITER - 1) (0 * 0 - 0 * 0 + cx)
    (2.0 * 0 * 0 + cy) 1 rfl (by decide)
  rw [← hfirst] at h1 h2
  exact ⟨h1, h2, hfirst⟩

/-! ### Task-creation threshold -/

theorem merge_sort_parallel_by_mode (arr temp : List Int) (left right : Nat) :
    merge_sort_parallel arr temp left right =
      match merge_sort_parallel_mode left right with
      | HalvesMode.no_recursion => { arr := arr, temp := temp }
      | HalvesMode.omp_tasks mid =>
        merge
          (merge_sort_parallel (merge_sort_parallel arr temp left mid).arr
            (merge_sort_parallel arr temp left mid).temp (mid + 1) right).arr
          (merge_sort_parallel (merge_sort_parallel arr temp left mid).arr
            (merge_sort_parallel arr temp left mid).temp (mid + 1) right).temp left mid right
      | HalvesMode.serial_calls mid =>
        merge
          (merge_sort_parallel (merge_sort_parallel arr temp left mid).arr
            (merge_sort_parallel arr temp left mid).temp (mid + 1) right).arr
          (merge_sort_parallel (merge_sort_parallel arr temp left mid).arr
            (merge_sort_parallel arr temp left mid).temp (mid + 1) right).temp left mid right := by
  rw [merge_sort_parallel]
  unfold merge_sort_parallel_mode
  by_cases h : left < right
  · rw [if_pos h, if_pos h]
    by_cases h2 : right - left + 1 > TASK_THRESHOLD
    · simp only [if_pos h2]
    · simp only [if_neg h2]
  · rw [if_neg h, if_neg h]

/-- C16 (amended): at a call of `merge_sort_parallel` over a subrange of
length `L = right - left + 1` that has two halves (`left < right`), the call
recurses serially on both halves if `L` is at most 10,000, in particular for
`L = 10,000` exactly, and spawns two tasks, one per half, joined before the
merge, if `L` exceeds 10,000. -/
theorem merge_sort_parallel_task_threshold (left right : Nat) (h : left < right) :
    (right - left + 1 ≤ 10000 →
        merge_sort_parallel_mode left right =
          HalvesMode.serial_calls (left + (right - left) / 2)) ∧
      (10000 < right - left + 1 →
        merge_sort_parallel_mode left right =
          HalvesMode.omp_tasks (left + (right - left) / 2)) := by
  unfold merge_sort_parallel_mode TASK_THRESHOLD
  rw [if_pos h]
  refine ⟨fun h1 => ?_, fun h1 => ?_⟩
  · simp only [if_neg (show ¬ right - left + 1 > 10000 by omega)]
  · simp only [if_pos (show right - left + 1 > 10000 by omega)]

theorem merge_sort_parallel_task_threshold_witness :
    (0 < 9999) ∧
      ((9999 - 0 + 1 ≤ 10000 →
          merge_sort_parallel_mode 0 9999 = HalvesMode.serial_calls (0 + (9999 - 0) / 2)) ∧
        (10000 < 9999 - 0 + 1 →
          merge_sort_parallel_mode 0 9999 = HalvesMode.omp_tasks (0 + (9999 - 0) / 2))) :=
  ⟨by decide, merge_sort_parallel_task_threshold 0 9999 (by decide)⟩

/-- C16 as stated fails at the boundary: the call over `[0, 9999]` has
`L = 10,000`, which is not below 10,000, yet it takes the serial branch and
spawns no task. -/
theorem merge_sort_parallel_threshold_counterexample :
    (0 < 9999 ∧ 10000 ≤ 9999 - 0 + 1) ∧
      merge_sort_parallel_mode 0 9999 = HalvesMode.serial_calls 4999 ∧
      merge_sort_parallel_mode 0 9999 ≠ HalvesMode.omp_tasks (0 + (9999 - 0) / 2) := by
  decide

/-! ### Allocation sizes -/

theorem wrap_int32_of_range (v : Int) (h0 : 0 ≤ v) (h1 : v < 2147483648) :
    wrap_int32 v = v := by
  unfold wrap_int32
  rw [Int.emod_eq_of_lt (by omega) (by omega)]
  omega

theorem to_size_t_of_range (v : Int) (h0 : 0 ≤ v) (h1 : v < 18446744073709551616) :
    (to_size_t v : Int) = v := by
  unfold to_size_t
  rw [Int.emod_eq_of_lt h0 h1]
  exact Int.toNat_of_nonneg h0

theorem mandelbrot_malloc_bytes_small (size : Int) (h0 : 0 < size) (h1 : size ≤ 46340) :
    (mandelbrot_malloc_bytes size : Int) = size * size * 4 := by
  have hsq : size * size ≤ 2147395600 := by nlinarith
  have hpos : 0 < size * size := by nlinarith
  unfold mandelbrot_malloc_bytes
  simp only
  rw [wrap_int32_of_range (size * size) (by linarith) (by linarith)]
  have h3 := to_size_t_of_range (size * size) (by linarith) (by linarith)
  have h4 : to_size_t (size * size) * 4 < 18446744073709551616 := by
    have : (to_size_t (size * size) : Int) * 4 < 18446744073709551616 := by
      rw [h3]; linarith
    exact_mod_cast this
  rw [Nat.mod_eq_of_lt h4]
  push_cast
  rw [h3]

/-- C18 at the failing inputs: for `size = 65536` the `int` product
`width * height` wraps to `0`, so `main` of `mandelbrot.c` requests `0` bytes
where `size * size` cells need `17179869184`; for `size = 46341` the product
wraps to a negative `int` and the request is `18446744065119635556` bytes,
not `8589953124`.  The sibling `(size_t)N * N * sizeof(double)` of
`matrix_mult.c` yields the mathematical product at `N = 65536`.  With `0`
bytes requested, even the first index written, `0 * width + 0`, is outside
the requested cells. -/
theorem mandelbrot_malloc_bytes_overflow :
    mandelbrot_malloc_bytes 65536 = 0 ∧ 65536 * 65536 * 4 = 17179869184 ∧
      mandelbrot_malloc_bytes 46341 = 18446744065119635556 ∧
      46341 * 46341 * 4 = 8589953124 ∧
      mandelbrot_malloc_bytes 46340 = 46340 * 46340 * 4 ∧
      matrix_malloc_bytes 65536 = 65536 * 65536 * 8 ∧
      ¬ (0 * 65536 + 0 < mandelbrot_malloc_bytes 65536 / 4) := by
  decide

theorem mandelbrot_malloc_bytes_large (size : Int) (h0 : 46341 ≤ size)
    (h1 : size ≤ 2147483647) : (mandelbrot_malloc_bytes size : Int) ≠ size * size * 4 := by
  have hq0 : 2147488281 ≤ size * size := by nlinarith
  have hq1 : size * size ≤ 4611686014132420609 := by nlinarith
  unfold mandelbrot_malloc_bytes wrap_int32 to_size_t
  simp only
  generalize size * size = q at hq0 hq1 ⊢
  omega

theorem mandelbrot_malloc_bytes_exact_iff (size : Int) (h0 : 0 < size)
    (h1 : size ≤ 2147483647) :
    (mandelbrot_malloc_bytes size : Int) = size * size * 4 ↔ size ≤ 46340 := by
  constructor
  · intro h
    by_contra hc
    exact mandelbrot_malloc_bytes_large size (by omega) h1 h
  · exact mandelbrot_malloc_bytes_small size h0

/-! ### Argument validation -/

/-- C11: `validate_args` returns 1 (and the run proceeds with the parsed size
and thread count) if and only if `argc = 3`, the parsed size is positive and
the parsed thread count is positive; in every other case the process ends
with exit status 1; a non-positive size and a non-positive thread count (with
a positive size) each write one message, and the two messages differ. -/
theorem validate_args_accepts_iff (atoi : String → Int) (argc : Int) (argv : List String)
    (prog_name algo_name : String) :
    ((∃ size threads err,
          validate_args atoi argc argv prog_name algo_name =
            ValidateResult.returned 1 size threads err) ↔
        argc = 3 ∧ 0 < atoi (argv.getD 1 "") ∧ 0 < atoi (argv.getD 2 "")) ∧
      (argc = 3 ∧ 0 < atoi (argv.getD 1 "") ∧ 0 < atoi (argv.getD 2 "") →
        validate_args atoi argc argv prog_name algo_name =
            ValidateResult.returned 1 (atoi (argv.getD 1 "")) (atoi (argv.getD 2 "")) [] ∧
          main_start atoi argc argv =
            StartResult.run_proceeds (atoi (argv.getD 1 "")) (atoi (argv.getD 2 ""))) ∧
      (¬ (argc = 3 ∧ 0 < atoi (argv.getD 1 "") ∧ 0 < atoi (argv.getD 2 "")) →
        ∃ err, main_start atoi argc argv = StartResult.process_ended 1 err) ∧
      (argc ≠ 3 →
        validate_args atoi argc argv prog_name algo_name = print_usage prog_name algo_name) ∧
      (argc = 3 → atoi (argv.getD 1 "") ≤ 0 →
        main_start atoi argc argv =
          StartResult.process_ended 1 ["Error: Problem size must be positive\n"]) ∧
      (argc = 3 → 0 < atoi (argv.getD 1 "") → atoi (argv.getD 2 "") ≤ 0 →
        main_start atoi argc argv =
          StartResult.process_ended 1 ["Error: Thread count must be positive\n"]) ∧
      "Error: Problem size must be positive\n" ≠ "Error: Thread count must be positive\n" := by
  have hpos : argc = 3 ∧ 0 < atoi (argv.getD 1 "") ∧ 0 < atoi (argv.getD 2 "") →
      ∀ p a, validate_args atoi argc argv p a =
        ValidateResult.returned 1 (atoi (argv.getD 1 "")) (atoi (argv.getD 2 "")) [] := by
    rintro ⟨h1, h2, h3⟩ p a
    unfold validate_args
    rw [if_neg (by simp [h1])]
    simp only [if_neg (not_le.mpr h2), if_neg (not_le.mpr h3)]
  have husage : argc ≠ 3 → ∀ p a, validate_args atoi argc argv p a = print_usage p a := by
    intro h p a
    unfold validate_args
    rw [if_pos h]
  have hsize : argc = 3 → atoi (argv.getD 1 "") ≤ 0 → ∀ p a,
      validate_args atoi argc argv p a =
        ValidateResult.returned 0 (atoi (argv.getD 1 "")) (atoi (argv.getD 2 ""))
          ["Error: Problem size must be positive\n"] := by
    intro h1 h2 p a
    unfold validate_args
    rw [if_neg (by simp [h1])]
    simp only [if_pos h2]
  have hthreads : argc = 3 → 0 < atoi (argv.getD 1 "") → atoi (argv.getD 2 "") ≤ 0 → ∀ p a,
      validate_args atoi argc argv p a =
        ValidateResult.returned 0 (atoi (argv.getD 1 "")) (atoi (argv.getD 2 ""))
          ["Error: Thread count must be positive\n"] := by
    intro h1 h2 h3 p a
    unfold validate_args
    rw [if_neg (by simp [h1])]
    simp only [if_neg (not_le.mpr h2), if_pos h3]
  have hmsize : argc = 3 → atoi (argv.getD 1 "") ≤ 0 →
      main_start atoi argc argv =
        StartResult.process_ended 1 ["Error: Problem size must be positive\n"] := by
    intro h1 h2
    unfold main_start
    rw [hsize h1 h2]
    simp
  have hmthreads : argc = 3 → 0 < atoi (argv.getD 1 "") → atoi (argv.getD 2 "") ≤ 0 →
      main_start atoi argc argv =
        StartResult.process_ended 1 ["Error: Thread count must be positive\n"] := by
    intro h1 h2 h3
    unfold main_start
    rw [hthreads h1 h2 h3]
    simp
  refine ⟨⟨?_, ?_⟩, ?_, ?_, ?_, hmsize, hmthreads, by decide⟩
  · rintro ⟨size, threads, err, h⟩
    by_cases h1 : argc = 3
    · by_cases h2 : atoi (argv.getD 1 "") ≤ 0
      · rw [hsize h1 h2] at h
        simp at h
      · by_cases h3 : atoi (argv.getD 2 "") ≤ 0
        · rw [hthreads h1 (not_le.mp h2) h3] at h
          simp at h
        · exact ⟨h1, not_le.mp h2, not_le.mp h3⟩
    · rw [husage h1] at h
      simp [print_usage] at h
  · intro h
    exact ⟨_, _, _, hpos h prog_name algo_name⟩
  · intro h
    refine ⟨hpos h prog_name algo_name, ?_⟩
    unfold main_start
    rw [hpos h]
    simp
  · intro h
    by_cases h1 : argc = 3
    · by_cases h2 : atoi (argv.getD 1 "") ≤ 0
      · exact ⟨_, hmsize h1 h2⟩
      · by_cases h3 : atoi (argv.getD 2 "") ≤ 0
        · exact ⟨_, hmthreads h1 (not_le.mp h2) h3⟩
        · exact absurd ⟨h1, not_le.mp h2, not_le.mp h3⟩ h
    · unfold main_start
      rw [husage h1]
      exact ⟨_, rfl⟩
  · intro h
    exact husage h prog_name algo_name

theorem validate_args_accepts_iff_witness :
    ((3 : Int) = 3 ∧ 0 < atoi_model (["sort", "1024", "8"].getD 1 "") ∧
        0 < atoi_model (["sort", "1024", "8"].getD 2 "")) ∧
      main_start atoi_model 3 ["sort", "1024", "8"] = StartResult.run_proceeds 1024 8 ∧
      main_start atoi_model 3 ["sort", "0", "8"] =
        StartResult.process_ended 1 ["Error: Problem size must be positive\n"] ∧
      main_start atoi_model 3 ["sort", "16", "-2"] =
        StartResult.process_ended 1 ["Error: Thread count must be positive\n"] := by
  have h : (3 : Int) = 3 ∧ 0 < atoi_model (["sort", "1024", "8"].getD 1 "") ∧
      0 < atoi_model (["sort", "1024", "8"].getD 2 "") := by decide
  refine ⟨h, ?_, ?_, ?_⟩
  · rw [((validate_args_accepts_iff atoi_model 3 ["sort", "1024", "8"] "sort"
      "Merge Sort").2.1 h).2]
    decide
  · exact (validate_args_accepts_iff atoi_model 3 ["sort", "0", "8"] "sort"
      "Merge Sort").2.2.2.2.1 rfl (by decide)
  · exact (validate_args_accepts_iff atoi_model 3 ["sort", "16", "-2"] "sort"
      "Merge Sort").2.2.2.2.2.1 rfl (by decide) (by decide)

/-! ### Monte Carlo -/

theorem wrap_int32_bounds (v : Int) :
    -2147483648 ≤ wrap_int32 v ∧ wrap_int32 v < 2147483648 := by
  unfold wrap_int32
  omega

theorem int_index_of_range (i N j : Nat) (h : i * N + j < 2147483648) :
    int_index i N j = ((i * N + j : Nat) : Int) := by
  unfold int_index
  rw [wrap_int32_of_range _ (by positivity) (by exact_mod_cast h)]
  push_cast
  rfl

theorem cell_write_high {α : Type} (l : List α) (w : Int) (v d : α) (idx : Nat)
    (hw : w < 2147483648) (hidx : 2147483648 ≤ idx) :
    (cell_write l w v).getD idx d = l.getD idx d := by
  unfold cell_write
  split
  · rfl
  · exact getD_set_other l _ idx v d (by omega)

theorem grid_never_writes_high {α : Type} (d : α) (g : Nat → Nat → List α → α) (w h : Nat)
    (l : List α) (idx : Nat) (hidx : 2147483648 ≤ idx) :
    (for_loop h (fun i l => for_loop w (fun j l =>
      cell_write l (int_index i w j) (g i j l)) l) l).getD idx d = l.getD idx d := by
  refine for_loop_invariant (fun s : List α => s.getD idx d = l.getD idx d) _ ?_ h l rfl
  intro i s hs
  refine for_loop_invariant (fun t : List α => t.getD idx d = l.getD idx d) _ ?_ w s hs
  intro j t ht
  have hb : int_index i w j < 2147483648 := (wrap_int32_bounds _).2
  exact (cell_write_high t (int_index i w j) (g i j t) d idx hb hidx).trans ht

theorem matrix_multiply_never_writes_high {D : Type} (O : DoubleOps D) (A B C : List D)
    (N : Nat) (threads : Int) (d : D) (idx : Nat) (hidx : 2147483648 ≤ idx) :
    (matrix_multiply O A B C N threads).C.getD idx d = C.getD idx d :=
  grid_never_writes_high d
    (fun i j _ => for_loop N (fun k sum =>
      O.add sum (O.mul (cell_read A (int_index i N k) (O.dec 0 (-1)))
        (cell_read B (int_index k N j) (O.dec 0 (-1))))) (O.dec 0 (-1)))
    N N C idx hidx

theorem initialize_matrix_never_writes_high {D : Type} (M : List D) (N : Nat) (value d : D)
    (idx : Nat) (hidx : 2147483648 ≤ idx) :
    (initialize_matrix M N value).getD idx d = M.getD idx d :=
  grid_never_writes_high d (fun _ _ _ => value) N N M idx hidx

theorem compute_mandelbrot_never_writes_high {D : Type} (O : DoubleOps D) (result : List Int)
    (width height : Nat) (threads : Int) (idx : Nat) (hidx : 2147483648 ≤ idx) :
    (compute_mandelbrot O result width height threads).getD idx 0 = result.getD idx 0 :=
  grid_never_writes_high (0 : Int)
    (fun py px _ => ((mandelbrot_iterations_double O
      (O.add (O.neg (O.dec 25 (-1)))
        (O.div (O.mul (O.sub (O.dec 10 (-1)) (O.neg (O.dec 25 (-1)))) (O.of_int px))
          (O.of_int width)))
      (O.add (O.neg (O.dec 10 (-1)))
        (O.div (O.mul (O.sub (O.dec 10 (-1)) (O.neg (O.dec 10 (-1)))) (O.of_int py))
          (O.of_int height))) : Nat) : Int))
    width height result idx hidx

theorem for_loop_congr {σ : Type} (n : Nat) (body body2 : Nat → σ → σ)
    (h : ∀ i, i < n → ∀ s, body i s = body2 i s) (s : σ) :
    for_loop n body s = for_loop n body2 s := by
  induction n with
  | zero => rfl
  | succ n ih =>
    rw [for_loop, for_loop, ih (fun i hi => h i (by omega)), h n (by omega)]

theorem grid_position_lt (i j N : Nat) (hi : i < N) (hj : j < N) : i * N + j < N * N := by
  have h1 : (i + 1) * N ≤ N * N := Nat.mul_le_mul_right N (by omega)
  rw [Nat.succ_mul] at h1
  omega

theorem cell_read_of_range {α : Type} (l : List α) (i N j : Nat) (d : α)
    (h : i * N + j < 2147483648) :
    cell_read l (int_index i N j) d = l.getD (i * N + j) d := by
  rw [int_index_of_range i N j h]
  unfold cell_read
  rw [if_neg (by omega), Int.toNat_ofNat]

theorem cell_write_of_range {α : Type} (l : List α) (i N j : Nat) (v : α)
    (h : i * N + j < 2147483648) :
    cell_write l (int_index i N j) v = l.set (i * N + j) v := by
  rw [int_index_of_range i N j h]
  unfold cell_write
  rw [if_neg (by omega), Int.toNat_ofNat]

theorem grid_loop_in_range {α : Type} (g : Nat → Nat → α) (w h : Nat) (l : List α)
    (hr : h * w ≤ 2147483648) :
    for_loop h (fun i l => for_loop w (fun j l => cell_write l (int_index i w j) (g i j)) l) l =
      for_loop h (fun i l => for_loop w (fun j l => l.set (i * w + j) (g i j)) l) l := by
  refine for_loop_congr h _ _ (fun i hi s => ?_) l
  refine for_loop_congr w _ _ (fun j hj t => ?_) s
  have h1 : (i + 1) * w ≤ h * w := Nat.mul_le_mul_right w (by omega)
  rw [Nat.succ_mul] at h1
  exact cell_write_of_range t i w j _ (by omega)

theorem matrix_multiply_in_range {D : Type} (O : DoubleOps D) (A B C : List D) (N : Nat)
    (threads : Int) (hN : N * N ≤ 2147483648) (hC : C.length = N * N) :
    (matrix_multiply O A B C N threads).C.length = N * N ∧
      ∀ i j, i < N → j < N →
        (matrix_multiply O A B C N threads).C.getD (i * N + j) (O.dec 0 (-1)) =
          (List.range N).foldl (fun sum k =>
            O.add sum (O.mul (A.getD (i * N + k) (O.dec 0 (-1)))
              (B.getD (k * N + j) (O.dec 0 (-1))))) (O.dec 0 (-1)) := by
  have hsum : ∀ i j, i < N → j < N →
      for_loop N (fun k sum =>
        O.add sum (O.mul (cell_read A (int_index i N k) (O.dec 0 (-1)))
          (cell_read B (int_index k N j) (O.dec 0 (-1))))) (O.dec 0 (-1)) =
      (List.range N).foldl (fun sum k =>
        O.add sum (O.mul (A.getD (i * N + k) (O.dec 0 (-1)))
          (B.getD (k * N + j) (O.dec 0 (-1))))) (O.dec 0 (-1)) := by
    intro i j hi hj
    rw [← for_loop_eq_foldl]
    refine for_loop_congr N _ _ (fun k hk sum => ?_) _
    rw [cell_read_of_range A i N k _ (by have := grid_position_lt i k N hi hk; omega),
      cell_read_of_range B k N j _ (by have := grid_position_lt k j N hk hj; omega)]
  have hC2 : (matrix_multiply O A B C N threads).C =
      for_loop N (fun i l => for_loop N (fun j l => l.set (i * N + j)
        ((List.range N).foldl (fun sum k =>
          O.add sum (O.mul (A.getD (i * N + k) (O.dec 0 (-1)))
            (B.getD (k * N + j) (O.dec 0 (-1))))) (O.dec 0 (-1)))) l) C := by
    unfold matrix_multiply
    simp only
    refine for_loop_congr N _ _ (fun i hi s => ?_) C
    refine for_loop_congr N _ _ (fun j hj t => ?_) s
    rw [hsum i j hi hj, cell_write_of_range t i N j _
      (by have := grid_position_lt i j N hi hj; omega)]
  obtain ⟨h1, h2, _⟩ := for_loop_set_grid (O.dec 0 (-1))
    (fun i j => (List.range N).foldl (fun sum k =>
      O.add sum (O.mul (A.getD (i * N + k) (O.dec 0 (-1)))
        (B.getD (k * N + j) (O.dec 0 (-1))))) (O.dec 0 (-1))) N N C (by omega)
  rw [← hC2] at h1 h2
  exact ⟨h1.trans hC, fun i j hi hj => h2 i j hi hj⟩

theorem initialize_matrix_in_range {D : Type} (M : List D) (N : Nat) (value d : D)
    (hN : N * N ≤ 2147483648) (hM : M.length = N * N) :
    (initialize_matrix M N value).length = N * N ∧
      ∀ i j, i < N → j < N → (initialize_matrix M N value).getD (i * N + j) d = value := by
  unfold initialize_matrix
  rw [grid_loop_in_range (fun _ _ => value) N N M hN]
  obtain ⟨h1, h2, _⟩ := for_loop_set_grid d (fun _ _ => value) N N M (by omega)
  exact ⟨h1.trans hM, fun i j hi hj => h2 i j hi hj⟩

theorem constant_fill_sum {D : Type} (O : DoubleOps D) (laws : SmallIntegerLaws O) :
    ∀ n : Nat, n ≤ 46341 →
      (List.range n).foldl (fun sum _ => O.add sum (O.mul (O.dec 10 (-1)) (O.dec 20 (-1))))
        (O.dec 0 (-1)) = O.of_int (2 * (n : Int)) := by
  intro n
  induction n with
  | zero =>
    intro _
    simpa using laws.zero_is_int
  | succ n ih =>
    intro hn
    rw [List.range_succ, List.foldl_append, ih (by omega)]
    simp only [List.foldl_cons, List.foldl_nil]
    rw [laws.add_two n (by omega)]
    push_cast
    rfl

theorem matrix_multiply_constant_fill_in_range {D : Type} (O : DoubleOps D)
    (laws : SmallIntegerLaws O) (A B C : List D) (N : Nat) (threads : Int)
    (hN : N * N ≤ 2147483648) (hA : A.length = N * N) (hB : B.length = N * N)
    (hC : C.length = N * N) :
    ∀ idx, idx < N * N →
      (matrix_multiply O (initialize_matrix A N (O.dec 10 (-1)))
        (initialize_matrix B N (O.dec 20 (-1))) C N threads).C.getD idx (O.dec 0 (-1)) =
          O.of_int (2 * (N : Int)) := by
  intro idx hidx
  have hN0 : 0 < N := by
    rcases Nat.eq_zero_or_pos N with h | h
    · subst h; simp at hidx
    · exact h
  have hN1 : N ≤ 46341 := by
    by_contra hc
    have : 46342 * 46342 ≤ N * N := Nat.mul_le_mul (by omega) (by omega)
    omega
  obtain ⟨_, hA2⟩ := initialize_matrix_in_range A N (O.dec 10 (-1)) (O.dec 0 (-1)) hN hA
  obtain ⟨_, hB2⟩ := initialize_matrix_in_range B N (O.dec 20 (-1)) (O.dec 0 (-1)) hN hB
  obtain ⟨_, h2⟩ := matrix_multiply_in_range O (initialize_matrix A N (O.dec 10 (-1)))
    (initialize_matrix B N (O.dec 20 (-1))) C N threads hN hC
  obtain ⟨hi, hj, hij⟩ := grid_index N idx N hN0 hidx
  rw [← hij, h2 _ _ hi hj, ← constant_fill_sum O laws N hN1]
  refine List.foldl_ext _ _ _ (fun sum k hk => ?_)
  rw [hA2 _ k hi (List.mem_range.mp hk), hB2 k _ (List.mem_range.mp hk) hj]

theorem compute_mandelbrot_in_range {D : Type} (O : DoubleOps D) (result : List Int)
    (width height : Nat) (threads : Int) (hr : height * width ≤ 2147483648)
    (hlen : result.length = height * width) :
    (compute_mandelbrot O result width height threads).length = height * width ∧
      ∀ px py, px < width → py < height →
        (compute_mandelbrot O result width height threads).getD (py * width + px) 0 =
          ((mandelbrot_iterations_double O
            (O.add (O.neg (O.dec 25 (-1)))
              (O.div (O.mul (O.sub (O.dec 10 (-1)) (O.neg (O.dec 25 (-1)))) (O.of_int px))
                (O.of_int width)))
            (O.add (O.neg (O.dec 10 (-1)))
              (O.div (O.mul (O.sub (O.dec 10 (-1)) (O.neg (O.dec 10 (-1)))) (O.of_int py))
                (O.of_int height))) : Nat) : Int) := by
  unfold compute_mandelbrot
  simp only
  rw [grid_loop_in_range (fun py px => ((mandelbrot_iterations_double O
      (O.add (O.neg (O.dec 25 (-1)))
        (O.div (O.mul (O.sub (O.dec 10 (-1)) (O.neg (O.dec 25 (-1)))) (O.of_int px))
          (O.of_int width)))
      (O.add (O.neg (O.dec 10 (-1)))
        (O.div (O.mul (O.sub (O.dec 10 (-1)) (O.neg (O.dec 10 (-1)))) (O.of_int py))
          (O.of_int height))) : Nat) : Int)) width height result hr]
  obtain ⟨h1, h2, _⟩ := for_loop_set_grid (0 : Int) (fun py px =>
    ((mandelbrot_iterations_double O
      (O.add (O.neg (O.dec 25 (-1)))
        (O.div (O.mul (O.sub (O.dec 10 (-1)) (O.neg (O.dec 25 (-1)))) (O.of_int px))
          (O.of_int width)))
      (O.add (O.neg (O.dec 10 (-1)))
        (O.div (O.mul (O.sub (O.dec 10 (-1)) (O.neg (O.dec 10 (-1)))) (O.of_int py))
          (O.of_int height))) : Nat) : Int)) width height result (by omega)
  exact ⟨h1.trans hlen, fun px py hpx hpy => h2 py px hpy hpx⟩

/-- C4 at the failing input `N = 46341`: the cell of row 46340 and column 46340
has the position `46340 * 46341 + 46340 = 2147488280`, which no `int` holds;
the `int` expression `i * N + j` of the kernel wraps to `-2147479016`, and in
every arithmetic and for all matrices `matrix_multiply` leaves that cell of
`C` as it was, instead of storing the sum there. -/
theorem matrix_multiply_index_overflow {D : Type} (O : DoubleOps D) (A B C : List D)
    (threads : Int) (d : D) :
    46340 * 46341 + 46340 = 2147488280 ∧ int_index 46340 46341 46340 = -2147479016 ∧
      (matrix_multiply O A B C 46341 threads).C.getD 2147488280 d = C.getD 2147488280 d := by
  exact ⟨by decide, by decide,
    matrix_multiply_never_writes_high O A B C 46341 threads d 2147488280 (by decide)⟩

/-- C5 at the failing input `N = 46341`: `initialize_matrix` does not reach the
cell at position `46340 * 46341 + 46340 = 2147488280` of `A` and of `B`, and
`matrix_multiply` on the filled matrices leaves that cell of `C` as it was,
so that it does not hold `2 * N`. -/
theorem matrix_multiply_constant_fill_overflow {D : Type} (O : DoubleOps D)
    (A B C : List D) (threads : Int) (d : D) :
    (initialize_matrix A 46341 (O.dec 10 (-1))).getD 2147488280 d = A.getD 2147488280 d ∧
      (initialize_matrix B 46341 (O.dec 20 (-1))).getD 2147488280 d = B.getD 2147488280 d ∧
      (matrix_multiply O (initialize_matrix A 46341 (O.dec 10 (-1)))
        (initialize_matrix B 46341 (O.dec 20 (-1))) C 46341 threads).C.getD 2147488280 d =
          C.getD 2147488280 d := by
  exact ⟨initialize_matrix_never_writes_high A 46341 _ d 2147488280 (by decide),
    initialize_matrix_never_writes_high B 46341 _ d 2147488280 (by decide),
    matrix_multiply_never_writes_high O _ _ C 46341 threads d 2147488280 (by decide)⟩

/-- C8 at the failing input `width = height = 65536`: the pixel `px = 0`,
`py = 32768` has the position `32768 * 65536 + 0 = 2147483648`, which no `int`
holds; the `int` expression `py * width + px` wraps to `-2147483648`, and in
every arithmetic `compute_mandelbrot` leaves that cell of `result` as it was,
instead of storing the escape count there. -/
theorem compute_mandelbrot_index_overflow {D : Type} (O : DoubleOps D) (result : List Int)
    (threads : Int) :
    32768 * 65536 + 0 = 2147483648 ∧ int_index 32768 65536 0 = -2147483648 ∧
      (compute_mandelbrot O result 65536 65536 threads).getD 2147483648 0 =
        result.getD 2147483648 0 := by
  exact ⟨by decide, by decide,
    compute_mandelbrot_never_writes_high O result 65536 65536 threads 2147483648 (by decide)⟩

/-! ### Schedules of the parallel regions -/

